import Mathlib

/-!
Verification development for the VCV Rack SDK surface in this repository.

Part 1: a shallow embedding of the fuzzy-search database
(`fuzzysearch::HelperFunctions` and `fuzzysearch::Database` from the
header-only implementation in the source). C `float` arithmetic is
modelled by exact rational arithmetic (`Rat`); byte strings are modelled
as `List Nat` (byte values); `std::vector` as `List`.

Part 2: a model of `rack::engine::Engine`. The source ships only the
class declaration with its documentation comments; the method bodies are
not part of this repository snapshot, so the engine operations are
modelled from the specification (each such definition says so in its doc
comment).
-/

namespace Fuzzy

/-- Byte string: one `Nat` per byte, as the C code walks `const char*`. -/
abbrev ByteStr := List Nat

/-- From `HelperFunctions::min3`. -/
def min3 (a b c : Nat) : Nat :=
  if a < b then (if a < c then a else c) else (if b < c then b else c)

/-- The scan loop of `HelperFunctions::substringScore`: position of the first
occurrence of `qw` as a contiguous substring of `w` (the C loop runs
`substrPos` from `0` to `wL - qwL`; `none` when there is no occurrence, in
particular when `qw` is longer than `w`). -/
def subPos (qw : ByteStr) : ByteStr → Option Nat
  | [] => if qw = [] then some 0 else none
  | c :: t =>
    if (c :: t).length < qw.length then none
    else if (c :: t).take qw.length = qw then some 0
    else (subPos qw t).map (· + 1)

/-- From `HelperFunctions::substringScore`: score of the first substring
occurrence, `20 / (20 + substrPos + (wL - qwL) * 0.5)`, and `0` when `qw`
does not occur in `w`. -/
def substringScore (qw w : ByteStr) : Rat :=
  match subPos qw w with
  | some p => 20 / (20 + (p : Rat) + ((w.length - qw.length : Nat) : Rat) * (1 / 2))
  | none => 0

/-- Strip the common prefix of two byte strings, as the first `while` loop of
`HelperFunctions::levDistance`. -/
def cutCommon : ByteStr → ByteStr → ByteStr × ByteStr
  | a :: as, b :: bs => if a = b then cutCommon as bs else (a :: as, b :: bs)
  | as, bs => (as, bs)

/-- The classic Levenshtein recurrence; the DP table filled by
`HelperFunctions::levDistance` tabulates exactly this function of the two
(already clamped) strings: `_dist[y*stride+x]` is the distance between the
length-`x` and length-`y` front parts. -/
def levRec : ByteStr → ByteStr → Nat
  | [], b => b.length
  | a, [] => a.length
  | x :: xs, y :: ys =>
    min3 (levRec xs (y :: ys) + 1) (levRec (x :: xs) ys + 1)
      (levRec xs ys + (if x = y then 0 else 1))
termination_by a b => a.length + b.length

/-- From `HelperFunctions::levDistance`: strip the common prefix, then the
common suffix, return the other length when one side is empty, clamp both
sides to `kLen = 15` bytes, and evaluate the Levenshtein DP. -/
def levDistance (a b : ByteStr) : Nat :=
  let p := cutCommon a b
  let s := cutCommon p.1.reverse p.2.reverse
  let a2 := s.1.reverse
  let b2 := s.2.reverse
  if a2.length < 1 then b2.length
  else if b2.length < 1 then a2.length
  else levRec (a2.take 15) (b2.take 15)

/-- From `HelperFunctions::scoreQueryWordToWord`: full byte-for-byte match
returns `1.0`; otherwise a substring score (only when the query is shorter),
skipped entirely when the word is more than `kLongerLim = 4` bytes longer
than the query or the query has fewer than 2 bytes; otherwise the maximum
with the fuzzy score `1 - fuzzyDist / distanceLim` when the Levenshtein
distance is below `distanceLim = (qwL + 1) / 2`. -/
def scoreQueryWordToWord (qw w : ByteStr) : Rat :=
  let qwL := qw.length
  let wL := w.length
  if qwL = wL ∧ qw = w then 1
  else
    let subStrScore : Rat := if qwL < wL then substringScore qw w else 0
    if qwL + 4 < wL then subStrScore
    else if qwL < 2 then subStrScore
    else
      let fuzzyDist := levDistance qw w
      let distanceLim := (qwL + 1) / 2
      if distanceLim ≤ fuzzyDist then subStrScore
      else max (1 - (fuzzyDist : Rat) / (distanceLim : Rat)) subStrScore

/-- From `HelperFunctions::isDivider`: every byte that is not an ASCII letter
or digit delimits words (a negative `signed char` fails all three range
tests in C exactly as a byte value above 127 does here). -/
def isDivider (c : Nat) : Bool :=
  !((97 ≤ c && c ≤ 122) || (65 ≤ c && c ≤ 90) || (48 ≤ c && c ≤ 57))

/-- From `HelperFunctions::splitString`: maximal runs of non-divider bytes. -/
def splitString : ByteStr → List ByteStr
  | [] => []
  | c :: rest =>
    if isDivider c then splitString rest
    else (c :: rest.takeWhile (fun x => !isDivider x)) ::
      splitString (rest.dropWhile (fun x => !isDivider x))
termination_by s => s.length
decreasing_by
  · simp only [List.length_cons]; omega
  · simp only [List.length_cons]
    exact Nat.lt_succ_of_le (List.dropWhile_sublist _).length_le

/-- From `HelperFunctions::toLower`: `std::tolower` per byte (ASCII). -/
def toLowerW (s : ByteStr) : ByteStr :=
  s.map (fun c => if 65 ≤ c ∧ c ≤ 90 then c + 32 else c)

/-- `Database::TempResult` (the `_score > other._score` comparator lives in
`tempLE` below). Default construction calls `set(0.0f, 0)`. -/
structure TempResult where
  entryIndex : Nat
  score : Rat
deriving DecidableEq

instance : Inhabited TempResult := ⟨⟨0, 0⟩⟩

/-- `Database::WordFromField`: index of a word and of the field it came from. -/
structure WordFromField where
  wordIndex : Nat
  fieldIndex : Nat
deriving DecidableEq

/-- `Database::Entry`: a key plus the word/field index pairs. The source is
templated over `Key`; keys play no role in scoring, so they are modelled as
`Nat` tokens. -/
structure FEntry where
  key : Nat
  words : List WordFromField
deriving DecidableEq

/-- `Database::Result`. -/
structure FResult where
  key : Nat
  score : Rat
deriving DecidableEq

/-- The `Database` state used by `search`: the word storage (`_wordData` and
`_wordEnd` describe exactly the list of stored words in memory order),
`_entries`, `_fieldWeights` and `_threshold`. -/
structure FDatabase where
  words : List ByteStr
  entries : List FEntry
  fieldWeights : List Rat
  threshold : Rat

/-- From `Database::scoreEveryWord`: score each stored word against one query
word, writing `0` for words shorter than the limit `qwL < 4 ? qwL-1 : qwL-2`
(an `int` in C, hence `Int` here: it is `-1` for an empty query word). -/
def scoreEveryWord (wordsL : List ByteStr) (qw : ByteStr) : List Rat :=
  let qwL := qw.length
  let lim : Int := if qwL < 4 then (qwL : Int) - 1 else (qwL : Int) - 2
  wordsL.map (fun b => if (b.length : Int) < lim then 0 else scoreQueryWordToWord qw b)

/-- From `Database::scoreEntry`: the highest `wordScore * fieldWeight` over
the entry's word/field pairs, starting from `0`. Out-of-range indices (UB in
the C code, unreachable for databases built through `addEntry`) read `0`. -/
def scoreEntry (scores weights : List Rat) (e : FEntry) : Rat :=
  e.words.foldl
    (fun acc wff =>
      let ls := scores.getD wff.wordIndex 0 * weights.getD wff.fieldIndex 0
      if acc < ls then ls else acc) 0

/-- From `Database::scoreEveryEntry`: on the first query word set
`tempResults[i] = (scoreEntry(entries[i]), i)`; on later words multiply the
stored score by `scoreEntry(entries[i])`, indexing entries by position. -/
def scoreEveryEntry (db : FDatabase) (scores : List Rat) (first : Bool)
    (temps : List TempResult) : List TempResult :=
  if first then
    (List.range temps.length).map
      (fun i => ⟨i, scoreEntry scores db.fieldWeights (db.entries.getD i ⟨0, []⟩)⟩)
  else
    temps.enum.map
      (fun it => ⟨it.2.entryIndex,
        it.2.score * scoreEntry scores db.fieldWeights (db.entries.getD it.1 ⟨0, []⟩)⟩)

/-- `std::vector::resize` on the mutable `_tempResults` member: keep the first
`n` old elements, default-construct the rest. -/
def resizeTR (l : List TempResult) (n : Nat) : List TempResult :=
  l.take n ++ List.replicate (n - l.length) default

/-- The comparator of `Database::TempResult::operator<` as used by
`std::sort`, reversed to sort high scores first; as a `le` relation a sort
ordered by it is non-increasing in score. -/
def tempLE (a b : TempResult) : Bool :=
  decide (b.score ≤ a.score)

/-- From `Database::search`: resize the temp mirror of the entries, split and
lowercase the query, per query word score every stored word then every
entry (set on the first word, multiply afterwards), erase scores below the
threshold, sort the rest high-score-first, and copy out keys. The mutable
`_tempResults` left over from a previous search is the explicit `prevTemps`
argument (only its first `entries.length` stale cells can survive the
resize, and only for an empty query). -/
def search (db : FDatabase) (prevTemps : List TempResult) (query : ByteStr) :
    List FResult :=
  let temps0 := resizeTR prevTemps db.entries.length
  let qws := (splitString query).map toLowerW
  let temps1 := qws.enum.foldl
    (fun ts iq => scoreEveryEntry db (scoreEveryWord db.words iq.2) (iq.1 == 0) ts)
    temps0
  let kept := temps1.filter (fun t => !decide (t.score < db.threshold))
  let sorted := kept.mergeSort tempLE
  sorted.map (fun t => ⟨(db.entries.getD t.entryIndex ⟨0, []⟩).key, t.score⟩)

end Fuzzy

namespace Fuzzy

lemma substringScore_nonneg (qw w : ByteStr) : 0 ≤ substringScore qw w := by
  unfold substringScore
  cases h : subPos qw w with
  | none => simp
  | some p =>
    have h2 : (0:Rat) ≤ ((w.length - qw.length : Nat) : Rat) * (1/2) := by positivity
    have h1 : (0:Rat) ≤ (p : Rat) := Nat.cast_nonneg p
    positivity

lemma substringScore_le_one (qw w : ByteStr) : substringScore qw w ≤ 1 := by
  unfold substringScore
  cases h : subPos qw w with
  | none => simp
  | some p =>
    have h1 : (0:Rat) ≤ (p : Rat) := Nat.cast_nonneg p
    have h2 : (0:Rat) ≤ ((w.length - qw.length : Nat) : Rat) * (1/2) := by positivity
    have hdpos : (0 : Rat) < 20 + (p : Rat) + ((w.length - qw.length : Nat) : Rat) * (1/2) := by
      linarith
    rw [div_le_one hdpos]
    linarith

/-- C10: `fuzzysearch::HelperFunctions::scoreQueryWordToWord` returns exactly
`1.0` on a full match (same length, same bytes) and its value always lies in
the closed interval `[0, 1]`. -/
theorem scoreQueryWordToWord_full_match_and_range (qw w : ByteStr) :
    (qw = w → scoreQueryWordToWord qw w = 1) ∧
    0 ≤ scoreQueryWordToWord qw w ∧ scoreQueryWordToWord qw w ≤ 1 := by
  have hsub0 := substringScore_nonneg qw w
  have hsub1 := substringScore_le_one qw w
  refine ⟨fun h => by subst h; simp [scoreQueryWordToWord], ?_⟩
  unfold scoreQueryWordToWord
  by_cases heq : qw.length = w.length ∧ qw = w
  · simp [heq]
  · simp only [heq, if_false]
    set sub : Rat := if qw.length < w.length then substringScore qw w else 0 with hsubdef
    have hs0 : 0 ≤ sub := by
      rw [hsubdef]; split <;> simp [hsub0]
    have hs1 : sub ≤ 1 := by
      rw [hsubdef]; split <;> simp [hsub1]
    by_cases hlong : qw.length + 4 < w.length
    · simp [hlong, hs0, hs1]
    · simp only [hlong, if_false]
      by_cases hshort : qw.length < 2
      · simp [hshort, hs0, hs1]
      · simp only [hshort, if_false]
        by_cases hfar : (qw.length + 1) / 2 ≤ levDistance qw w
        · simp [hfar, hs0, hs1]
        · simp only [hfar, if_false]
          push_neg at hfar
          have hlim1 : 1 ≤ (qw.length + 1) / 2 := by omega
          have hlimQ : (0 : Rat) < (((qw.length + 1) / 2 : Nat) : Rat) := by
            exact_mod_cast Nat.lt_of_lt_of_le Nat.zero_lt_one hlim1
          have hfrac0 : (0 : Rat) ≤ ((levDistance qw w : Nat) : Rat) / (((qw.length + 1) / 2 : Nat) : Rat) := by
            positivity
          have hfrac1 : ((levDistance qw w : Nat) : Rat) / (((qw.length + 1) / 2 : Nat) : Rat) ≤ 1 := by
            rw [div_le_one hlimQ]
            exact_mod_cast Nat.le_of_lt hfar
          constructor
          · exact le_trans (by linarith) (le_max_left _ _)
          · exact max_le (by linarith) hs1

/-- Witness for the full-match hypothesis of the C10 theorem at the concrete
words `"ab"` and `"ab"`. -/
theorem scoreQueryWordToWord_full_match_witness :
    scoreQueryWordToWord [97, 98] [97, 98] = 1 :=
  (scoreQueryWordToWord_full_match_and_range [97, 98] [97, 98]).1 rfl

end Fuzzy

namespace Fuzzy

lemma tempLE_trans : ∀ a b c : TempResult,
    tempLE a b = true → tempLE b c = true → tempLE a c = true := by
  intro a b c hab hbc
  simp only [tempLE, decide_eq_true_eq] at *
  exact le_trans hbc hab

lemma tempLE_total : ∀ a b : TempResult, (tempLE a b || tempLE b a) = true := by
  intro a b
  simp only [tempLE, Bool.or_eq_true, decide_eq_true_eq]
  exact le_total b.score a.score

/-- C9: every result of `fuzzysearch::Database::search` scores at least the
configured threshold, and the returned list is ordered by non-increasing
score. -/
theorem search_threshold_and_sorted (db : FDatabase) (prevTemps : List TempResult)
    (query : ByteStr) :
    (∀ r ∈ search db prevTemps query, db.threshold ≤ r.score) ∧
    List.Pairwise (fun a b : Rat => b ≤ a) ((search db prevTemps query).map FResult.score) := by
  constructor
  · intro r hr
    unfold search at hr
    simp only [List.mem_map] at hr
    obtain ⟨t, ht, rfl⟩ := hr
    have ht' := (List.mergeSort_perm _ tempLE).mem_iff.mp ht
    rw [List.mem_filter] at ht'
    have h2 := ht'.2
    simp only [Bool.not_eq_true', decide_eq_false_iff_not, not_lt] at h2
    exact h2
  · unfold search
    rw [List.map_map]
    refine List.Pairwise.map _ (fun a b hab => ?_)
      (List.sorted_mergeSort tempLE_trans tempLE_total _)
    show b.score ≤ a.score
    simpa only [tempLE, decide_eq_true_eq] using hab

end Fuzzy

namespace Engine

/-- Modelled from the spec: a Module as the engine sees it. The repository
ships only the `Engine` class declaration, so modules are modelled from §3
of the spec: caller-owned identity (`ptr` stands for the C++ pointer), a
64-bit `id` (-1 = unassigned), parameter values, the bypass flag, and an
opaque serializable payload (`data`, a token standing for the module's own
JSON). -/
structure EModule where
  ptr : Nat
  id : Int
  params : List Rat
  bypassed : Bool
  data : Nat
deriving DecidableEq

/-- Modelled from the spec: a Cable (§3): caller-owned identity `ptr`, a
64-bit `id`, and the `(outputModuleId, outputPortId)` /
`(inputModuleId, inputPortId)` endpoints. -/
structure ECable where
  ptr : Nat
  id : Int
  outputModuleId : Int
  outputPortId : Int
  inputModuleId : Int
  inputPortId : Int
deriving DecidableEq

/-- Modelled from the spec: a ParamHandle (§3, §4.3): caller-owned identity
`ptr` plus the referenced `(moduleId, paramId)` pair; `(-1, -1)` when
unbound. -/
structure EParamHandle where
  ptr : Nat
  moduleId : Int
  paramId : Int
deriving DecidableEq

/-- Modelled from the spec: the Graph state of §3 — two ID-keyed registries
(modules, cables), the ParamHandle set, the nullable master-module pointer,
the sample rate, the `block` / `frame` counters plus the bookkeeping of the
current block, the auto-ID counters of §4.7, and a fresh-pointer counter
used when deserialization instantiates modules and cables. Locks, worker
threads and the CPU meter are concurrency machinery outside this
state-machine model. -/
structure EngineState where
  modules : List EModule
  cables : List ECable
  paramHandles : List EParamHandle
  masterPtr : Option Nat
  nextModuleId : Int
  nextCableId : Int
  nextPtr : Nat
  sampleRate : Rat
  block : Int
  frame : Int
  blockFrames : Int
deriving DecidableEq

/-- Modelled from the spec: the state of a freshly constructed `Engine`. -/
def initEngine : EngineState :=
  ⟨[], [], [], none, 0, 0, 0, 44100, 0, 0, 0⟩

/-- `Engine::getBlock`: the block counter. -/
def getBlock (st : EngineState) : Int := st.block

/-- `Engine::getFrame`: the frame counter. -/
def getFrame (st : EngineState) : Int := st.frame

/-- `Engine::hasModule`, modelled from the spec: pointer membership in the
module registry. -/
def hasModule (st : EngineState) (p : Nat) : Bool :=
  st.modules.any (fun m => m.ptr == p)

/-- `Engine::getModule`, modelled from the spec: lookup by module ID. -/
def getModule (st : EngineState) (id : Int) : Option EModule :=
  st.modules.find? (fun m => m.id == id)

/-- `Engine::getCable`, modelled from the spec: lookup by cable ID. -/
def getCable (st : EngineState) (id : Int) : Option ECable :=
  st.cables.find? (fun c => c.id == id)

/-- `Engine::addModule`, modelled from the spec (§4.7, §7): reject a module
already in the rack (bad reference) with no state change; resolve `id = -1`
from the atomic monotone counter, otherwise keep the caller's id; reject a
taken id (topology violation) with no state change; else append. Returns
the assigned id. -/
def addModule (st : EngineState) (m : EModule) : Except Unit (EngineState × Int) :=
  if st.modules.any (fun m2 => m2.ptr == m.ptr) then .error ()
  else
    let id := if m.id = -1 then st.nextModuleId else m.id
    if st.modules.any (fun m2 => m2.id == id) then .error ()
    else
      .ok ({ st with
              modules := st.modules ++ [{ m with id := id }],
              nextModuleId := if m.id = -1 then st.nextModuleId + 1 else st.nextModuleId },
           id)

/-- `Engine::removeModule`, modelled from the spec (§3 lifecycles, header
doc of `setMasterModule`): a module not in the rack is a bad reference and
nothing changes; otherwise the module leaves the registry, every cable
touching it is removed, and the master pointer is unset if it was this
module. ParamHandles referencing it merely become inert (§4.3). -/
def removeModule (st : EngineState) (p : Nat) : EngineState :=
  match st.modules.find? (fun m => m.ptr == p) with
  | none => st
  | some m =>
    { st with
      modules := st.modules.filter (fun m2 => !(m2.ptr == p)),
      cables := st.cables.filter
        (fun c => !(c.outputModuleId == m.id || c.inputModuleId == m.id)),
      masterPtr := if st.masterPtr == some p then none else st.masterPtr }

/-- `Engine::addCable`, modelled from the spec (§3, §4.7, §7): auto-assign
`id = -1` from the cable counter; duplicate id, a missing endpoint module,
or an already-connected input port are topology violations with no state
change; else append. Returns the assigned id. -/
def addCable (st : EngineState) (c : ECable) : Except Unit (EngineState × Int) :=
  if st.cables.any (fun c2 => c2.ptr == c.ptr) then .error ()
  else
    let id := if c.id = -1 then st.nextCableId else c.id
    if st.cables.any (fun c2 => c2.id == id) then .error ()
    else if !(st.modules.any (fun m => m.id == c.outputModuleId)) then .error ()
    else if !(st.modules.any (fun m => m.id == c.inputModuleId)) then .error ()
    else if st.cables.any
        (fun c2 => c2.inputModuleId == c.inputModuleId && c2.inputPortId == c.inputPortId) then
      .error ()
    else
      .ok ({ st with
              cables := st.cables ++ [{ c with id := id }],
              nextCableId := if c.id = -1 then st.nextCableId + 1 else st.nextCableId },
           id)

/-- `Engine::removeCable`, modelled from the spec: erase by identity; a
cable not in the rack is a bad reference and nothing changes. -/
def removeCable (st : EngineState) (p : Nat) : EngineState :=
  { st with cables := st.cables.filter (fun c => !(c.ptr == p)) }

/-- `Engine::clear`, modelled from the spec and the header doc: removes all
modules and cables; the master module is unset exactly when it was one of
the removed modules (it "does not need to belong to the Engine"). Counters
survive a clear. -/
def clearRack (st : EngineState) : EngineState :=
  { st with
    modules := [],
    cables := [],
    masterPtr := match st.masterPtr with
      | some p => if st.modules.any (fun m => m.ptr == p) then none else some p
      | none => none }

/-- `Engine::setMasterModule`, modelled from the header doc: the module need
not belong to the engine; `none` unsets. -/
def setMasterModule (st : EngineState) (p : Option Nat) : EngineState :=
  { st with masterPtr := p }

/-- `Engine::bypassModule`, modelled from the spec: set the bypass flag of
the given module. -/
def bypassModule (st : EngineState) (p : Nat) (b : Bool) : EngineState :=
  { st with modules := st.modules.map (fun m => if m.ptr == p then { m with bypassed := b } else m) }

/-- `Engine::setParamValue`, modelled from the spec (smoothing abstracted:
the claims under proof concern only the stored value). -/
def setParamValue (st : EngineState) (p : Nat) (paramId : Nat) (v : Rat) : EngineState :=
  let ms := st.modules.map
    (fun m => if m.ptr == p then { m with params := m.params.set paramId v } else m)
  { st with modules := ms }

/-- `Engine::stepBlock`, modelled from the spec (§4.6): processing and cable
propagation abstracted; the block counter increments by one, the frame
counter by `frames`, and `blockFrames` records the block size. -/
def stepBlock (st : EngineState) (frames : Nat) : EngineState :=
  { st with
    block := st.block + 1,
    frame := st.frame + (frames : Int),
    blockFrames := (frames : Int) }

/-- `Engine::setFrame`, modelled from the header doc: the host moves the
playhead. -/
def setFrame (st : EngineState) (f : Int) : EngineState :=
  { st with frame := f }

/-- `Engine::setSampleRate`, modelled from the spec. -/
def setSampleRate (st : EngineState) (r : Rat) : EngineState :=
  { st with sampleRate := r }

/-- `Engine::addParamHandle`, modelled from the spec (§4.3): insert into the
handle set (no automatic update of its binding). -/
def addParamHandle (st : EngineState) (h : EParamHandle) : EngineState :=
  if st.paramHandles.any (fun h2 => h2.ptr == h.ptr) then st
  else { st with paramHandles := st.paramHandles ++ [h] }

/-- `Engine::removeParamHandle`, modelled from the spec (§4.3). -/
def removeParamHandle (st : EngineState) (p : Nat) : EngineState :=
  { st with paramHandles := st.paramHandles.filter (fun h => !(h.ptr == p)) }

/-- `Engine::getParamHandle`, modelled from the spec (§4.3): the handle
currently bound to `(moduleId, paramId)`. -/
def getParamHandle (st : EngineState) (moduleId paramId : Int) : Option EParamHandle :=
  st.paramHandles.find? (fun h => h.moduleId == moduleId && h.paramId == paramId)

/-- The per-handle step of `updateParamHandle` with `overwrite`: the handle
with identity `p` is bound to the target pair; any other handle claiming
the target pair is reset to `(-1, -1)`. -/
def rebindHandle (p : Nat) (moduleId paramId : Int) (h : EParamHandle) : EParamHandle :=
  if h.ptr == p then { h with moduleId := moduleId, paramId := paramId }
  else if h.moduleId == moduleId && h.paramId == paramId then
    { h with moduleId := -1, paramId := -1 }
  else h

/-- `Engine::updateParamHandle`, modelled from the spec (§4.3) and the
header doc: for a registered handle, if another handle claims the target
pair and `overwrite` is set, that other handle is reset to `(-1, -1)` and
the given handle is rebound; without `overwrite` the given handle is left
unbound. An unregistered handle changes nothing. -/
def updateParamHandle (st : EngineState) (p : Nat) (moduleId paramId : Int)
    (overwrite : Bool) : EngineState :=
  if st.paramHandles.any (fun h => h.ptr == p) then
    let claimed := st.paramHandles.any
      (fun h => !(h.ptr == p) && h.moduleId == moduleId && h.paramId == paramId)
    if claimed && !overwrite then
      let hs := st.paramHandles.map
        (fun h => if h.ptr == p then { h with moduleId := -1, paramId := -1 } else h)
      { st with paramHandles := hs }
    else
      { st with paramHandles := st.paramHandles.map (rebindHandle p moduleId paramId) }
  else st

end Engine

namespace Engine

/-- Modelled from the spec (§6): an abstract JSON tree, the collaborator
contract for the JSON library ("parse string to tree; render tree to
string; typed accessors"). Whitespace and rendering do not exist at this
level, so equality of trees is document equality modulo whitespace; the
encoder below emits objects in one fixed key order. -/
inductive Json where
  | null
  | jbool (b : Bool)
  | jint (n : Int)
  | jnum (q : Rat)
  | jarr (xs : List Json)
  | jobj (fields : List (String × Json))

/-- Typed accessor: field of an object. -/
def jGet : Json → String → Option Json
  | .jobj fields, k => lookupField fields k
  | _, _ => none
where
  lookupField : List (String × Json) → String → Option Json
  | [], _ => none
  | f :: fs, k => if f.1 = k then some f.2 else lookupField fs k

/-- Typed accessor: integer. -/
def asInt : Json → Option Int
  | .jint n => some n
  | _ => none

/-- Typed accessor: non-negative integer (the opaque `data` token). -/
def asNat : Json → Option Nat
  | .jint n => if n < 0 then none else some n.toNat
  | _ => none

/-- Typed accessor: number. -/
def asNum : Json → Option Rat
  | .jnum q => some q
  | _ => none

/-- Typed accessor: boolean. -/
def asBool : Json → Option Bool
  | .jbool b => some b
  | _ => none

/-- Typed accessor: array. -/
def asArr : Json → Option (List Json)
  | .jarr xs => some xs
  | _ => none

/-- Modelled from the spec (§4.9): the serializable part of one module
entry, `{id, params:[{id,value}], bypassed, data}` (plugin/model/version
metadata rides inside the opaque `data` token). -/
structure MJson where
  id : Int
  params : List Rat
  bypassed : Bool
  data : Nat
deriving DecidableEq

/-- Modelled from the spec (§4.9): one cable entry,
`{id, outputModuleId, outputPortId, inputModuleId, inputPortId}`. -/
structure CJson where
  id : Int
  outputModuleId : Int
  outputPortId : Int
  inputModuleId : Int
  inputPortId : Int
deriving DecidableEq

/-- Modelled from the spec (§4.9, §6): the graph document
`{version, modules:[...], cables:[...], masterModuleId?}`. -/
structure GraphJson where
  modules : List MJson
  cables : List CJson
  master : Option Int
deriving DecidableEq

/-- Encode one `{id, value}` parameter entry. -/
def encodeParam (i : Nat) (v : Rat) : Json :=
  .jobj [("id", .jint (i : Int)), ("value", .jnum v)]

/-- Encode the parameter array in index order starting at `i`. -/
def encodeParamsFrom (i : Nat) : List Rat → List Json
  | [] => []
  | v :: vs => encodeParam i v :: encodeParamsFrom (i + 1) vs

/-- Encode one module entry. -/
def encodeModule (m : MJson) : Json :=
  .jobj [("id", .jint m.id), ("params", .jarr (encodeParamsFrom 0 m.params)),
         ("bypassed", .jbool m.bypassed), ("data", .jint (m.data : Int))]

/-- Encode one cable entry. -/
def encodeCable (c : CJson) : Json :=
  .jobj [("id", .jint c.id), ("outputModuleId", .jint c.outputModuleId),
         ("outputPortId", .jint c.outputPortId), ("inputModuleId", .jint c.inputModuleId),
         ("inputPortId", .jint c.inputPortId)]

/-- Encode the graph document; `masterModuleId` is present exactly when a
master id is known. -/
def encodeGraph (g : GraphJson) : Json :=
  .jobj ([("version", .jint 2), ("modules", .jarr (g.modules.map encodeModule)),
          ("cables", .jarr (g.cables.map encodeCable))] ++
    (match g.master with
     | some i => [("masterModuleId", .jint i)]
     | none => []))

/-- Decode the parameter array, expecting entry `i` to carry `id = i` (the
shape the encoder produces; anything else is malformed). -/
def decodeParams : List Json → Nat → Option (List Rat)
  | [], _ => some []
  | x :: xs, i => do
    let idJ ← jGet x "id"
    let n ← asInt idJ
    if n = (i : Int) then
      let vJ ← jGet x "value"
      let v ← asNum vJ
      let rest ← decodeParams xs (i + 1)
      some (v :: rest)
    else none

/-- Decode one module entry. -/
def decodeModule (j : Json) : Option MJson := do
  let id ← asInt (← jGet j "id")
  let ps ← asArr (← jGet j "params")
  let params ← decodeParams ps 0
  let bypassed ← asBool (← jGet j "bypassed")
  let data ← asNat (← jGet j "data")
  some ⟨id, params, bypassed, data⟩

/-- Decode one cable entry. -/
def decodeCable (j : Json) : Option CJson := do
  let id ← asInt (← jGet j "id")
  let omid ← asInt (← jGet j "outputModuleId")
  let opid ← asInt (← jGet j "outputPortId")
  let imid ← asInt (← jGet j "inputModuleId")
  let ipid ← asInt (← jGet j "inputPortId")
  some ⟨id, omid, opid, imid, ipid⟩

/-- Decode a homogeneous array element-wise. -/
def decodeList {α : Type} (f : Json → Option α) : List Json → Option (List α)
  | [] => some []
  | x :: xs => do
    let a ← f x
    let rest ← decodeList f xs
    some (a :: rest)

/-- Decode the graph document: `version` must be an integer, `modules` and
`cables` well-formed arrays; `masterModuleId`, when present, an integer. -/
def decodeGraph (j : Json) : Option GraphJson := do
  let _ ← asInt (← jGet j "version")
  let ms ← asArr (← jGet j "modules")
  let modules ← decodeList decodeModule ms
  let cs ← asArr (← jGet j "cables")
  let cables ← decodeList decodeCable cs
  let master ← match jGet j "masterModuleId" with
    | none => some none
    | some mj => (asInt mj).map some
  some ⟨modules, cables, master⟩

end Engine

namespace Engine

/-- Strip a live module to its serializable part. -/
def stripModule (m : EModule) : MJson :=
  ⟨m.id, m.params, m.bypassed, m.data⟩

/-- Strip a live cable to its serializable part. -/
def stripCable (c : ECable) : CJson :=
  ⟨c.id, c.outputModuleId, c.outputPortId, c.inputModuleId, c.inputPortId⟩

/-- The graph document of a state: modules and cables in registry order;
`masterModuleId` is the id of the master module when the master belongs to
the rack, absent otherwise (a master pointer need not belong to the
engine, and only members have a serializable id). -/
def graphOf (st : EngineState) : GraphJson :=
  ⟨st.modules.map stripModule,
   st.cables.map stripCable,
   st.masterPtr.bind (fun p => (st.modules.find? (fun m => m.ptr == p)).map (fun m => m.id))⟩

/-- `Engine::toJson`, modelled from the spec (§4.9): serialize the rack under
the read lock. -/
def toJson (st : EngineState) : Json :=
  encodeGraph (graphOf st)

/-- Deserialize the module array in declared order, instantiating each
module with a fresh pointer token. -/
def loadModules : EngineState → List MJson → Except Unit EngineState
  | st, [] => .ok st
  | st, mj :: rest => do
    let r ← addModule { st with nextPtr := st.nextPtr + 1 }
      ⟨st.nextPtr, mj.id, mj.params, mj.bypassed, mj.data⟩
    loadModules r.1 rest

/-- Deserialize the cable array in declared order. -/
def loadCables : EngineState → List CJson → Except Unit EngineState
  | st, [] => .ok st
  | st, cj :: rest => do
    let r ← addCable { st with nextPtr := st.nextPtr + 1 }
      ⟨st.nextPtr, cj.id, cj.outputModuleId, cj.outputPortId, cj.inputModuleId, cj.inputPortId⟩
    loadCables r.1 rest

/-- Restore the master pointer from `masterModuleId`: bind it to the member
module with that id, or leave it unset when absent or unknown. -/
def loadMaster (st : EngineState) (master : Option Int) : EngineState :=
  match master with
  | none => { st with masterPtr := none }
  | some i =>
    { st with masterPtr := (st.modules.find? (fun m => m.id == i)).map (fun m => m.ptr) }

/-- Load a decoded graph document: clear, then modules, cables, master in
declared order (§4.9). -/
def loadGraph (st : EngineState) (g : GraphJson) : Except Unit EngineState := do
  let st1 ← loadModules (clearRack st) g.modules
  let st2 ← loadCables st1 g.cables
  .ok (loadMaster st2 g.master)

/-- `Engine::fromJson`, modelled from the spec (§4.9, §7): deserialize under
the write lock; on a malformed document or a topology violation during
reconstruction, the partially loaded graph is discarded, the engine is
left cleared, and the failure is signalled (the `Bool` component). -/
def fromJson (st : EngineState) (j : Json) : EngineState × Bool :=
  match decodeGraph j with
  | none => (clearRack st, false)
  | some g =>
    match loadGraph st g with
    | .ok st' => (st', true)
    | .error _ => (clearRack st, false)

/-- Modelled from the spec: the mutating operations of §4.7 as a trace
alphabet, so that "every state reachable by the engine's operations" is a
fold of `applyOp` from `initEngine`. -/
inductive Op where
  | addModuleOp (m : EModule)
  | removeModuleOp (p : Nat)
  | addCableOp (c : ECable)
  | removeCableOp (p : Nat)
  | clearOp
  | setMasterOp (p : Option Nat)
  | bypassOp (p : Nat) (b : Bool)
  | setParamOp (p : Nat) (i : Nat) (v : Rat)
  | addHandleOp (h : EParamHandle)
  | removeHandleOp (p : Nat)
  | updateHandleOp (p : Nat) (moduleId paramId : Int) (overwrite : Bool)
  | stepBlockOp (frames : Nat)
  | setFrameOp (f : Int)
  | setSampleRateOp (r : Rat)
  | fromJsonOp (j : Json)

/-- Apply one operation; a signalled error (duplicate id, bad reference,
topology violation) leaves the state unchanged, per §7. -/
def applyOp (st : EngineState) : Op → EngineState
  | .addModuleOp m => match addModule st m with
    | .ok r => r.1
    | .error _ => st
  | .removeModuleOp p => removeModule st p
  | .addCableOp c => match addCable st c with
    | .ok r => r.1
    | .error _ => st
  | .removeCableOp p => removeCable st p
  | .clearOp => clearRack st
  | .setMasterOp p => setMasterModule st p
  | .bypassOp p b => bypassModule st p b
  | .setParamOp p i v => setParamValue st p i v
  | .addHandleOp h => addParamHandle st h
  | .removeHandleOp p => removeParamHandle st p
  | .updateHandleOp p mid pid ow => updateParamHandle st p mid pid ow
  | .stepBlockOp frames => stepBlock st frames
  | .setFrameOp f => setFrame st f
  | .setSampleRateOp r => setSampleRate st r
  | .fromJsonOp j => (fromJson st j).1

/-- Run a trace of operations from a state. -/
def runOps (st : EngineState) (ops : List Op) : EngineState :=
  ops.foldl applyOp st

/-- A state is reachable when some operation trace from the initial engine
produces it. -/
def Reachable (st : EngineState) : Prop :=
  ∃ ops : List Op, runOps initEngine ops = st

/-- The number of `stepBlock` calls in a trace. -/
def countStepBlocks (ops : List Op) : Nat :=
  ops.countP (fun op => match op with
    | .stepBlockOp _ => true
    | _ => false)

end Engine

namespace Engine

lemma addModule_ok_shape {st : EngineState} {m : EModule} {st' : EngineState} {id : Int}
    (h : addModule st m = .ok (st', id)) :
    st'.modules = st.modules ++ [{ m with id := id }] ∧
    st'.cables = st.cables ∧ st'.paramHandles = st.paramHandles ∧
    st'.masterPtr = st.masterPtr ∧ st'.nextPtr = st.nextPtr ∧
    st'.sampleRate = st.sampleRate ∧ st'.block = st.block ∧ st'.frame = st.frame ∧
    st'.blockFrames = st.blockFrames ∧
    id = (if m.id = -1 then st.nextModuleId else m.id) ∧
    st.modules.any (fun m2 => m2.ptr == m.ptr) = false ∧
    st.modules.any (fun m2 => m2.id == id) = false ∧
    st'.nextModuleId = (if m.id = -1 then st.nextModuleId + 1 else st.nextModuleId) := by
  unfold addModule at h
  by_cases hp : st.modules.any (fun m2 => m2.ptr == m.ptr) = true
  · simp [hp] at h
  · rw [Bool.not_eq_true] at hp
    by_cases hid : st.modules.any
        (fun m2 => m2.id == (if m.id = -1 then st.nextModuleId else m.id)) = true
    · simp [hp, hid] at h
    · rw [Bool.not_eq_true] at hid
      simp only [hp, hid, Bool.false_eq_true, if_false, Except.ok.injEq, Prod.mk.injEq] at h
      obtain ⟨hst, hidv⟩ := h
      subst hst
      subst hidv
      refine ⟨rfl, rfl, rfl, rfl, rfl, rfl, rfl, rfl, rfl, rfl, hp, hid, rfl⟩

lemma addCable_ok_shape {st : EngineState} {c : ECable} {st' : EngineState} {id : Int}
    (h : addCable st c = .ok (st', id)) :
    st'.cables = st.cables ++ [{ c with id := id }] ∧
    st'.modules = st.modules ∧ st'.paramHandles = st.paramHandles ∧
    st'.masterPtr = st.masterPtr ∧ st'.nextPtr = st.nextPtr ∧
    st'.sampleRate = st.sampleRate ∧ st'.block = st.block ∧ st'.frame = st.frame ∧
    st'.blockFrames = st.blockFrames ∧ st'.nextModuleId = st.nextModuleId ∧
    id = (if c.id = -1 then st.nextCableId else c.id) ∧
    st.cables.any (fun c2 => c2.ptr == c.ptr) = false ∧
    st.cables.any (fun c2 => c2.id == id) = false ∧
    st.modules.any (fun m => m.id == c.outputModuleId) = true ∧
    st.modules.any (fun m => m.id == c.inputModuleId) = true ∧
    st.cables.any
      (fun c2 => c2.inputModuleId == c.inputModuleId && c2.inputPortId == c.inputPortId) = false ∧
    st'.nextCableId = (if c.id = -1 then st.nextCableId + 1 else st.nextCableId) := by
  unfold addCable at h
  by_cases hp : st.cables.any (fun c2 => c2.ptr == c.ptr) = true
  · simp [hp] at h
  · rw [Bool.not_eq_true] at hp
    by_cases hid : st.cables.any
        (fun c2 => c2.id == (if c.id = -1 then st.nextCableId else c.id)) = true
    · simp [hp, hid] at h
    · rw [Bool.not_eq_true] at hid
      by_cases hout : st.modules.any (fun m => m.id == c.outputModuleId) = true
      · by_cases hin : st.modules.any (fun m => m.id == c.inputModuleId) = true
        · by_cases hport : st.cables.any
              (fun c2 => c2.inputModuleId == c.inputModuleId &&
                c2.inputPortId == c.inputPortId) = true
          · simp [hp, hid, hout, hin, hport] at h
          · rw [Bool.not_eq_true] at hport
            simp only [hp, hid, hout, hin, hport, Bool.false_eq_true, Bool.not_false,
              Bool.not_true, if_false, if_true, Except.ok.injEq, Prod.mk.injEq] at h
            obtain ⟨hst, hidv⟩ := h
            subst hst
            subst hidv
            exact ⟨rfl, rfl, rfl, rfl, rfl, rfl, rfl, rfl, rfl, rfl, rfl, hp, hid,
              hout, hin, hport, rfl⟩
        · rw [Bool.not_eq_true] at hin
          simp [hp, hid, hout, hin] at h
      · rw [Bool.not_eq_true] at hout
        simp [hp, hid, hout] at h

/-- C1: after a successful `addModule(m)` with assigned `id`, `hasModule(m)`
holds and `getModule(id)` is `m`; after `removeModule(m)`, `hasModule(m)`
fails and `getModule(id)` no longer returns anything. -/
theorem addModule_then_removeModule_spec {st : EngineState} {m : EModule}
    {st' : EngineState} {id : Int} (hadd : addModule st m = .ok (st', id)) :
    hasModule st' m.ptr = true ∧
    (getModule st' id).map EModule.ptr = some m.ptr ∧
    hasModule (removeModule st' m.ptr) m.ptr = false ∧
    getModule (removeModule st' m.ptr) id = none := by
  obtain ⟨hmods, -, -, -, -, -, -, -, -, -, hptr, hid, -⟩ := addModule_ok_shape hadd
  have hptr' : ∀ x ∈ st.modules, ¬x.ptr = m.ptr := by
    intro x hx
    have := List.any_eq_false.mp hptr x hx
    simpa using this
  have hid' : ∀ x ∈ st.modules, ¬x.id = id := by
    intro x hx
    have := List.any_eq_false.mp hid x hx
    simpa using this
  have hfind : st.modules.find? (fun x => x.id == id) = none :=
    List.find?_eq_none.mpr (fun x hx => by simpa using hid' x hx)
  have hfindp : st.modules.find? (fun x => x.ptr == m.ptr) = none :=
    List.find?_eq_none.mpr (fun x hx => by simpa using hptr' x hx)
  refine ⟨?_, ?_, ?_, ?_⟩
  · simp [hasModule, hmods]
  · simp [getModule, hmods, List.find?_append, hfind]
  · have hrm : (removeModule st' m.ptr).modules = st.modules := by
      unfold removeModule
      rw [hmods, List.find?_append, hfindp]
      simp only [List.find?_cons, beq_self_eq_true, if_pos, Option.some.injEq]
      have : (st.modules ++ [{ m with id := id }]).filter
          (fun m2 => !(m2.ptr == m.ptr)) = st.modules := by
        rw [List.filter_append]
        have h1 : st.modules.filter (fun m2 => !(m2.ptr == m.ptr)) = st.modules :=
          List.filter_eq_self.mpr (fun x hx => by simp [hptr' x hx])
        simp [h1]
      simp [this]
    simp only [hasModule, hrm]
    exact List.any_eq_false.mpr (fun x hx => by simp [hptr' x hx])
  · have hrm : (removeModule st' m.ptr).modules = st.modules := by
      unfold removeModule
      rw [hmods, List.find?_append, hfindp]
      simp only [List.find?_cons, beq_self_eq_true, if_pos, Option.some.injEq]
      have : (st.modules ++ [{ m with id := id }]).filter
          (fun m2 => !(m2.ptr == m.ptr)) = st.modules := by
        rw [List.filter_append]
        have h1 : st.modules.filter (fun m2 => !(m2.ptr == m.ptr)) = st.modules :=
          List.filter_eq_self.mpr (fun x hx => by simp [hptr' x hx])
        simp [h1]
      simp [this]
    simp only [getModule, hrm]
    exact hfind

/-- The state after adding one fresh module (auto id `0`) to the empty
engine. -/
def oneModuleState : EngineState :=
  { initEngine with modules := [⟨0, 0, [], false, 0⟩], nextModuleId := 1 }

/-- Witness for C1 at a concrete input: adding a fresh module to the empty
engine with an automatically assigned id, then removing it. -/
theorem addModule_then_removeModule_witness :
    hasModule oneModuleState 0 = true ∧
    (getModule oneModuleState 0).map EModule.ptr = some 0 ∧
    hasModule (removeModule oneModuleState 0) 0 = false ∧
    getModule (removeModule oneModuleState 0) 0 = none :=
  addModule_then_removeModule_spec
    (show addModule initEngine ⟨0, -1, [], false, 0⟩ = .ok (oneModuleState, 0) by
      simp [addModule, initEngine, oneModuleState])

end Engine

namespace Engine

/-- C4: removing a module that is in the rack unsets it as master when it
was the master, and no cable whose output or input endpoint is that module
survives. -/
theorem removeModule_master_and_cables {st : EngineState} {p : Nat} {m : EModule}
    (hfind : st.modules.find? (fun x => x.ptr == p) = some m) :
    ((st.masterPtr = some p → (removeModule st p).masterPtr = none) ∧
     ∀ c ∈ (removeModule st p).cables,
       c.outputModuleId ≠ m.id ∧ c.inputModuleId ≠ m.id) := by
  unfold removeModule
  rw [hfind]
  constructor
  · intro hm
    simp [hm]
  · intro c hc
    rw [List.mem_filter] at hc
    have h2 := hc.2
    simp only [Bool.not_eq_eq_eq_not, Bool.not_true, Bool.or_eq_false_iff] at h2
    constructor
    · simpa using h2.1
    · simpa using h2.2

/-- A concrete three-piece state for the C4 witness: one module (pointer 5,
id 3) that is the master, with a feedback cable on itself. -/
def c4State : EngineState :=
  { initEngine with
      modules := [⟨5, 3, [], false, 0⟩],
      cables := [⟨1, 0, 3, 0, 3, 0⟩],
      masterPtr := some 5 }

/-- Witness for C4 at the concrete state: removing the master module. -/
theorem removeModule_master_and_cables_witness :
    ((c4State.masterPtr = some 5 → (removeModule c4State 5).masterPtr = none) ∧
     ∀ c ∈ (removeModule c4State 5).cables,
       c.outputModuleId ≠ (⟨5, 3, [], false, 0⟩ : EModule).id ∧
       c.inputModuleId ≠ (⟨5, 3, [], false, 0⟩ : EModule).id) :=
  removeModule_master_and_cables
    (show c4State.modules.find? (fun x => x.ptr == 5) = some ⟨5, 3, [], false, 0⟩ by decide)

/-- C6: one `stepBlock(frames)` call advances the frame counter by exactly
`frames`; when the host calls `setFrame` between blocks, the next block
continues from the value the host set. -/
theorem stepBlock_frame_advance (st : EngineState) (frames : Nat) (f : Int) :
    getFrame (stepBlock st frames) = getFrame st + (frames : Int) ∧
    getFrame (stepBlock (setFrame st f) frames) = f + (frames : Int) := by
  constructor <;> rfl

/-- C7: an `addModule` or `addCable` whose caller-supplied id (not `-1`) is
already taken signals an error and leaves the state unchanged. -/
theorem add_duplicate_id_error_no_change {st : EngineState} {m : EModule} {c : ECable}
    (hmid : m.id ≠ -1) (hmtaken : (getModule st m.id).isSome = true)
    (hcid : c.id ≠ -1) (hctaken : (getCable st c.id).isSome = true) :
    addModule st m = .error () ∧ applyOp st (.addModuleOp m) = st ∧
    addCable st c = .error () ∧ applyOp st (.addCableOp c) = st := by
  obtain ⟨m0, hm0⟩ := Option.isSome_iff_exists.mp hmtaken
  obtain ⟨c0, hc0⟩ := Option.isSome_iff_exists.mp hctaken
  unfold getModule at hm0
  unfold getCable at hc0
  have hpm := List.find?_some hm0
  have hpc := List.find?_some hc0
  have hmany : st.modules.any (fun m2 => m2.id == m.id) = true :=
    List.any_eq_true.mpr ⟨m0, List.mem_of_find?_eq_some hm0, hpm⟩
  have hcany : st.cables.any (fun c2 => c2.id == c.id) = true :=
    List.any_eq_true.mpr ⟨c0, List.mem_of_find?_eq_some hc0, hpc⟩
  have herrm : addModule st m = .error () := by
    unfold addModule
    by_cases hp : st.modules.any (fun m2 => m2.ptr == m.ptr) = true
    · simp [hp]
    · rw [Bool.not_eq_true] at hp
      simp [hp, if_neg hmid, hmany]
  have herrc : addCable st c = .error () := by
    unfold addCable
    by_cases hp : st.cables.any (fun c2 => c2.ptr == c.ptr) = true
    · simp [hp]
    · rw [Bool.not_eq_true] at hp
      simp [hp, if_neg hcid, hcany]
  refine ⟨herrm, ?_, herrc, ?_⟩
  · simp [applyOp, herrm]
  · simp [applyOp, herrc]

/-- A concrete state for the C7 witness: one module with id 3, one cable
with id 4. -/
def c7State : EngineState :=
  { initEngine with
      modules := [⟨0, 3, [], false, 0⟩],
      cables := [⟨0, 4, 3, 0, 3, 0⟩] }

/-- Witness for C7 at the concrete state: re-adding id 3 / id 4 fails and
changes nothing. -/
theorem add_duplicate_id_error_no_change_witness :
    addModule c7State ⟨9, 3, [], false, 0⟩ = .error () ∧
    applyOp c7State (.addModuleOp ⟨9, 3, [], false, 0⟩) = c7State ∧
    addCable c7State ⟨9, 4, 3, 0, 3, 0⟩ = .error () ∧
    applyOp c7State (.addCableOp ⟨9, 4, 3, 0, 3, 0⟩) = c7State :=
  add_duplicate_id_error_no_change
    (m := ⟨9, 3, [], false, 0⟩) (c := ⟨9, 4, 3, 0, 3, 0⟩)
    (by decide) (show (getModule c7State 3).isSome = true by decide)
    (by decide) (show (getCable c7State 4).isSome = true by decide)

/-- No cable in the state references a module id that is not in the rack. -/
def noDanglingCables (st : EngineState) : Prop :=
  ∀ c ∈ st.cables, (getModule st c.outputModuleId).isSome ∧
    (getModule st c.inputModuleId).isSome

/-- C8: when `fromJson` signals failure on a malformed document, the engine
is left with no modules, no cables, and no dangling cable references. -/
theorem fromJson_failure_leaves_empty {st : EngineState} {j : Json}
    (hfail : (fromJson st j).2 = false) :
    (fromJson st j).1.modules = [] ∧ (fromJson st j).1.cables = [] ∧
    noDanglingCables (fromJson st j).1 := by
  unfold fromJson at hfail ⊢
  cases hdec : decodeGraph j with
  | none =>
    simp only [hdec]
    exact ⟨rfl, rfl, fun c hc => by simp [clearRack] at hc⟩
  | some g =>
    simp only [hdec] at hfail ⊢
    cases hload : loadGraph st g with
    | ok st' => simp [hload] at hfail
    | error e =>
      simp only [hload]
      exact ⟨rfl, rfl, fun c hc => by simp [clearRack] at hc⟩

/-- Witness for C8 at a concrete input: `null` is not a graph document. -/
theorem fromJson_failure_leaves_empty_witness :
    (fromJson initEngine Json.null).1.modules = [] ∧
    (fromJson initEngine Json.null).1.cables = [] ∧
    noDanglingCables (fromJson initEngine Json.null).1 :=
  fromJson_failure_leaves_empty (show (fromJson initEngine Json.null).2 = false by rfl)

end Engine

namespace Engine

/-- Whether a trace element is a `stepBlock` call. -/
def isStepOp : Op → Bool
  | .stepBlockOp _ => true
  | _ => false

lemma loadModules_counters {mjs : List MJson} {st st' : EngineState}
    (h : loadModules st mjs = .ok st') :
    st'.block = st.block ∧ st'.frame = st.frame := by
  induction mjs generalizing st with
  | nil =>
    simp only [loadModules, Except.ok.injEq] at h
    rw [← h]
    exact ⟨rfl, rfl⟩
  | cons mj rest ih =>
    simp only [loadModules, bind, Except.bind] at h
    cases hadd : addModule { st with nextPtr := st.nextPtr + 1 }
        ⟨st.nextPtr, mj.id, mj.params, mj.bypassed, mj.data⟩ with
    | error e => rw [hadd] at h; exact absurd h (by simp)
    | ok r =>
      rw [hadd] at h
      obtain ⟨st1, id1⟩ := r
      have hb := (addModule_ok_shape hadd).2.2.2.2.2.2.1
      have hf := (addModule_ok_shape hadd).2.2.2.2.2.2.2.1
      have := ih h
      exact ⟨this.1.trans hb, this.2.trans hf⟩

lemma loadCables_counters {cjs : List CJson} {st st' : EngineState}
    (h : loadCables st cjs = .ok st') :
    st'.block = st.block ∧ st'.frame = st.frame := by
  induction cjs generalizing st with
  | nil =>
    simp only [loadCables, Except.ok.injEq] at h
    rw [← h]
    exact ⟨rfl, rfl⟩
  | cons cj rest ih =>
    simp only [loadCables, bind, Except.bind] at h
    cases hadd : addCable { st with nextPtr := st.nextPtr + 1 }
        ⟨st.nextPtr, cj.id, cj.outputModuleId, cj.outputPortId, cj.inputModuleId,
          cj.inputPortId⟩ with
    | error e => rw [hadd] at h; exact absurd h (by simp)
    | ok r =>
      rw [hadd] at h
      obtain ⟨st1, id1⟩ := r
      have hb := (addCable_ok_shape hadd).2.2.2.2.2.2.1
      have hf := (addCable_ok_shape hadd).2.2.2.2.2.2.2.1
      have := ih h
      exact ⟨this.1.trans hb, this.2.trans hf⟩

lemma fromJson_counters (st : EngineState) (j : Json) :
    ((fromJson st j).1).block = st.block := by
  unfold fromJson
  cases hdec : decodeGraph j with
  | none => rfl
  | some g =>
    cases hload : loadGraph st g with
    | error e => simp [hload, clearRack]
    | ok st' =>
      simp only [hload]
      unfold loadGraph at hload
      cases hm : loadModules (clearRack st) g.modules with
      | error e => simp [hm, bind, Except.bind] at hload
      | ok st1 =>
        simp only [hm, bind, Except.bind] at hload
        cases hc : loadCables st1 g.cables with
        | error e => simp [hc] at hload
        | ok st2 =>
          simp only [hc, Except.ok.injEq] at hload
          have h1 := (loadModules_counters hm).1
          have h2 := (loadCables_counters hc).1
          have h3 : st'.block = st2.block := by
            rw [← hload]
            cases g.master <;> rfl
          rw [h3, h2, h1]
          rfl

lemma applyOp_block (st : EngineState) (op : Op) :
    (applyOp st op).block = st.block + (if isStepOp op then 1 else 0) := by
  cases op with
  | addModuleOp m =>
    simp only [applyOp, isStepOp]
    cases h : addModule st m with
    | ok r =>
      obtain ⟨st1, id1⟩ := r
      have := (addModule_ok_shape h).2.2.2.2.2.2.1
      simp [this]
    | error e => simp
  | addCableOp c =>
    simp only [applyOp, isStepOp]
    cases h : addCable st c with
    | ok r =>
      obtain ⟨st1, id1⟩ := r
      have := (addCable_ok_shape h).2.2.2.2.2.2.1
      simp [this]
    | error e => simp
  | removeModuleOp p =>
    simp only [applyOp, isStepOp]
    unfold removeModule
    cases h : st.modules.find? (fun m => m.ptr == p) <;> simp
  | removeCableOp p => simp [applyOp, isStepOp, removeCable]
  | clearOp => simp [applyOp, isStepOp, clearRack]
  | setMasterOp p => simp [applyOp, isStepOp, setMasterModule]
  | bypassOp p b => simp [applyOp, isStepOp, bypassModule]
  | setParamOp p i v => simp [applyOp, isStepOp, setParamValue]
  | addHandleOp h =>
    simp only [applyOp, isStepOp, addParamHandle]
    split <;> simp
  | removeHandleOp p => simp [applyOp, isStepOp, removeParamHandle]
  | updateHandleOp p mid pid ow =>
    simp only [applyOp, isStepOp, updateParamHandle]
    split
    · split <;> simp
    · simp
  | stepBlockOp frames => simp [applyOp, isStepOp, stepBlock]
  | setFrameOp f => simp [applyOp, isStepOp, setFrame]
  | setSampleRateOp r => simp [applyOp, isStepOp, setSampleRate]
  | fromJsonOp j =>
    simp only [applyOp, isStepOp, if_false]
    simp [fromJson_counters st j]

/-- C5: on every trace of engine operations from the freshly created engine,
`getBlock` equals the number of `stepBlock` calls in the trace — each
`stepBlock` adds exactly one, and no other operation touches the counter. -/
theorem getBlock_counts_stepBlock_calls (ops : List Op) :
    getBlock (runOps initEngine ops) = (countStepBlocks ops : Int) := by
  suffices h : ∀ (l : List Op) (st : EngineState),
      (runOps st l).block = st.block + (l.countP isStepOp : Int) by
    have h0 := h ops initEngine
    have : countStepBlocks ops = ops.countP isStepOp := by
      unfold countStepBlocks isStepOp
      rfl
    rw [getBlock, h0, this]
    simp [initEngine]
  intro l
  induction l with
  | nil => intro st; simp [runOps]
  | cons op rest ih =>
    intro st
    have hstep : runOps st (op :: rest) = runOps (applyOp st op) rest := rfl
    rw [hstep, ih, applyOp_block, List.countP_cons]
    push_cast
    by_cases hs : isStepOp op = true
    · simp only [hs, if_true]
      ring
    · simp only [hs, if_false, Bool.false_eq_true]
      ring

end Engine

namespace Engine

/-- The §3 invariant on the handle registry: at most one active handle
(`moduleId ≥ 0`) references any `(moduleId, paramId)` pair. -/
def handleClaimsDistinct (hs : List EParamHandle) : Prop :=
  hs.Pairwise
    (fun a b => ¬(0 ≤ a.moduleId ∧ a.moduleId = b.moduleId ∧ a.paramId = b.paramId))


lemma find_rebound (l : List EParamHandle) (p : Nat) (mid pid : Int) (hmid : 0 ≤ mid)
    (hex : l.any (fun h => h.ptr == p) = true) :
    (l.map (rebindHandle p mid pid)).find?
      (fun h => h.moduleId == mid && h.paramId == pid) = some ⟨p, mid, pid⟩ := by
  induction l with
  | nil => simp at hex
  | cons h t ih =>
    rw [List.map_cons]
    by_cases hp : h.ptr = p
    · have hr : rebindHandle p mid pid h = ⟨p, mid, pid⟩ := by
        simp [rebindHandle, hp]
      rw [hr, List.find?_cons_of_pos _ (by simp)]
    · have hmatch : ¬(((rebindHandle p mid pid h).moduleId == mid &&
          (rebindHandle p mid pid h).paramId == pid) = true) := by
        by_cases hc : h.moduleId = mid ∧ h.paramId = pid
        · have hr : rebindHandle p mid pid h = ⟨h.ptr, -1, -1⟩ := by
            simp [rebindHandle, hp, hc.1, hc.2]
          rw [hr]
          simp only [Bool.and_eq_true, beq_iff_eq]
          rintro ⟨h1, -⟩
          omega
        · have hr : rebindHandle p mid pid h = h := by
            simp only [rebindHandle, Bool.and_eq_true, beq_iff_eq]
            rw [if_neg (by simpa using hp), if_neg hc]
          rw [hr]
          simpa only [Bool.and_eq_true, beq_iff_eq] using hc
      rw [List.find?_cons_of_neg
        (p := fun h : EParamHandle => h.moduleId == mid && h.paramId == pid) _ hmatch]
      apply ih
      rcases List.any_eq_true.mp hex with ⟨x, hx, hxx⟩
      cases hx with
      | head => exact absurd (by simpa using hxx) hp
      | tail _ hxt => exact List.any_eq_true.mpr ⟨x, hxt, hxx⟩

lemma rebind_pairwise (l : List EParamHandle) (p : Nat) (mid pid : Int) (hmid : 0 ≤ mid)
    (huniq : handleClaimsDistinct l)
    (hptr : l.Pairwise (fun a b => a.ptr ≠ b.ptr)) :
    handleClaimsDistinct (l.map (rebindHandle p mid pid)) := by
  unfold handleClaimsDistinct at *
  rw [List.pairwise_map]
  refine (huniq.and hptr).imp ?_
  rintro a b ⟨hP, hQ⟩
  by_cases hap : a.ptr = p
  · have hfa : rebindHandle p mid pid a = ⟨a.ptr, mid, pid⟩ := by
      simp [rebindHandle, hap]
    rw [hfa]
    by_cases hbp : b.ptr = p
    · exact absurd (hap.trans hbp.symm) hQ
    · by_cases hbc : b.moduleId = mid ∧ b.paramId = pid
      · have hfb : rebindHandle p mid pid b = ⟨b.ptr, -1, -1⟩ := by
          simp [rebindHandle, hbp, hbc.1, hbc.2]
        rw [hfb]
        rintro ⟨-, h2, -⟩
        simp only at h2
        omega
      · have hfb : rebindHandle p mid pid b = b := by
          simp only [rebindHandle, Bool.and_eq_true, beq_iff_eq]
          rw [if_neg (by simpa using hbp), if_neg hbc]
        rw [hfb]
        rintro ⟨-, h2, h3⟩
        simp only at h2 h3
        exact hbc ⟨h2.symm, h3.symm⟩
  · by_cases hac : a.moduleId = mid ∧ a.paramId = pid
    · have hfa : rebindHandle p mid pid a = ⟨a.ptr, -1, -1⟩ := by
        simp [rebindHandle, hap, hac.1, hac.2]
      rw [hfa]
      rintro ⟨h1, -, -⟩
      simp only at h1
      omega
    · have hfa : rebindHandle p mid pid a = a := by
        simp only [rebindHandle, Bool.and_eq_true, beq_iff_eq]
        rw [if_neg (by simpa using hap), if_neg hac]
      rw [hfa]
      by_cases hbp : b.ptr = p
      · have hfb : rebindHandle p mid pid b = ⟨b.ptr, mid, pid⟩ := by
          simp [rebindHandle, hbp]
        rw [hfb]
        rintro ⟨h1, h2, h3⟩
        simp only at h2 h3
        exact hac ⟨h2, h3⟩
      · by_cases hbc : b.moduleId = mid ∧ b.paramId = pid
        · have hfb : rebindHandle p mid pid b = ⟨b.ptr, -1, -1⟩ := by
            simp [rebindHandle, hbp, hbc.1, hbc.2]
          rw [hfb]
          rintro ⟨h1, h2, -⟩
          simp only at h2
          omega
        · have hfb : rebindHandle p mid pid b = b := by
            simp only [rebindHandle, Bool.and_eq_true, beq_iff_eq]
            rw [if_neg (by simpa using hbp), if_neg hbc]
          rw [hfb]
          exact hP

/-- C3: for a registered handle and `overwrite = true`, any other handle
claiming the target `(moduleId, paramId)` is reset to `(-1, -1)`, the given
handle is rebound so that `getParamHandle` returns it, and the at-most-one-
active-claimant invariant is preserved. -/
theorem updateParamHandle_overwrite_spec {st : EngineState} {p : Nat} {mid pid : Int}
    (hmid : 0 ≤ mid)
    (hreg : st.paramHandles.any (fun h => h.ptr == p) = true)
    {h' : EParamHandle} (hmem : h' ∈ st.paramHandles) (hne : h'.ptr ≠ p)
    (hcm : h'.moduleId = mid) (hcp : h'.paramId = pid)
    (huniq : handleClaimsDistinct st.paramHandles)
    (hptr : st.paramHandles.Pairwise (fun a b => a.ptr ≠ b.ptr)) :
    (⟨h'.ptr, -1, -1⟩ : EParamHandle) ∈ (updateParamHandle st p mid pid true).paramHandles ∧
    getParamHandle (updateParamHandle st p mid pid true) mid pid = some ⟨p, mid, pid⟩ ∧
    handleClaimsDistinct (updateParamHandle st p mid pid true).paramHandles := by
  have hred : updateParamHandle st p mid pid true =
      { st with paramHandles := st.paramHandles.map (rebindHandle p mid pid) } := by
    unfold updateParamHandle
    simp [hreg]
  rw [hred]
  refine ⟨?_, ?_, ?_⟩
  · have hrh : rebindHandle p mid pid h' = ⟨h'.ptr, -1, -1⟩ := by
      simp [rebindHandle, hne, hcm, hcp]
    rw [← hrh]
    exact List.mem_map_of_mem _ hmem
  · exact find_rebound st.paramHandles p mid pid hmid hreg
  · exact rebind_pairwise st.paramHandles p mid pid hmid huniq hptr

/-- A concrete state for the C3 witness: handle 1 claims `(5, 0)`, handle 2
is unbound. -/
def c3State : EngineState :=
  { initEngine with paramHandles := [⟨1, 5, 0⟩, ⟨2, -1, -1⟩] }

/-- Witness for C3 at the concrete state: rebinding handle 2 onto `(5, 0)`
with `overwrite` resets handle 1 and makes `getParamHandle(5, 0)` return
handle 2. -/
theorem updateParamHandle_overwrite_witness :
    (⟨1, -1, -1⟩ : EParamHandle) ∈ (updateParamHandle c3State 2 5 0 true).paramHandles ∧
    getParamHandle (updateParamHandle c3State 2 5 0 true) 5 0 = some ⟨2, 5, 0⟩ ∧
    handleClaimsDistinct (updateParamHandle c3State 2 5 0 true).paramHandles :=
  updateParamHandle_overwrite_spec (by decide) (by decide)
    (show (⟨1, 5, 0⟩ : EParamHandle) ∈ c3State.paramHandles by decide)
    (by decide) rfl rfl
    (by unfold handleClaimsDistinct c3State; decide) (by unfold c3State; decide)

end Engine

namespace Engine

/-- The graph-registry invariant maintained by every engine operation:
distinct module ids and identities, distinct cable ids, all ids assigned
(not `-1`), every cable endpoint present, at most one cable per input
port, and non-negative auto-id counters. -/
structure Inv (st : EngineState) : Prop where
  midNodup : (st.modules.map (fun m => m.id)).Nodup
  midNe : ∀ m ∈ st.modules, m.id ≠ -1
  mptrNodup : (st.modules.map (fun m => m.ptr)).Nodup
  cidNodup : (st.cables.map (fun c => c.id)).Nodup
  cidNe : ∀ c ∈ st.cables, c.id ≠ -1
  portsNodup : (st.cables.map (fun c => (c.inputModuleId, c.inputPortId))).Nodup
  cOut : ∀ c ∈ st.cables, st.modules.any (fun m => m.id == c.outputModuleId) = true
  cIn : ∀ c ∈ st.cables, st.modules.any (fun m => m.id == c.inputModuleId) = true
  nmidNonneg : 0 ≤ st.nextModuleId
  ncidNonneg : 0 ≤ st.nextCableId

lemma anyId_iff_mem (l : List EModule) (x : Int) :
    l.any (fun m => m.id == x) = true ↔ x ∈ l.map (fun m => m.id) := by
  rw [List.any_eq_true, List.mem_map]
  constructor
  · rintro ⟨m, hm, hx⟩
    exact ⟨m, hm, by simpa using hx⟩
  · rintro ⟨m, hm, hx⟩
    exact ⟨m, hm, by simpa using hx⟩

lemma addModule_inv {st : EngineState} {m : EModule} {st' : EngineState} {id : Int}
    (h : addModule st m = .ok (st', id)) (hinv : Inv st) : Inv st' := by
  obtain ⟨hmods, hcab, -, -, -, -, -, -, -, hid, hptrg, hidg, hnm⟩ := addModule_ok_shape h
  have hidnotin : id ∉ st.modules.map (fun x => x.id) := by
    rw [List.mem_map]
    rintro ⟨x, hx, hxid⟩
    exact absurd (by simpa using hxid : (x.id == id) = true)
      (by simpa using List.any_eq_false.mp hidg x hx)
  have hptrnotin : m.ptr ∉ st.modules.map (fun x => x.ptr) := by
    rw [List.mem_map]
    rintro ⟨x, hx, hxp⟩
    exact absurd (by simpa using hxp : (x.ptr == m.ptr) = true)
      (by simpa using List.any_eq_false.mp hptrg x hx)
  have hidne : id ≠ -1 := by
    rcases hid with hid
    by_cases hm1 : m.id = -1
    · rw [hid, if_pos hm1]
      have := hinv.nmidNonneg
      omega
    · rw [hid, if_neg hm1]
      exact hm1
  refine ⟨?_, ?_, ?_, ?_, ?_, ?_, ?_, ?_, ?_, ?_⟩
  · rw [hmods, List.map_append, List.nodup_append]
    exact ⟨hinv.midNodup, by simp, by
      intro a ha hb
      simp only [List.map_cons, List.map_nil, List.mem_singleton] at hb
      exact hidnotin (hb ▸ ha)⟩
  · rw [hmods]
    intro x hx
    rcases List.mem_append.mp hx with hx | hx
    · exact hinv.midNe x hx
    · rcases List.mem_singleton.mp hx with rfl
      exact hidne
  · rw [hmods, List.map_append, List.nodup_append]
    exact ⟨hinv.mptrNodup, by simp, by
      intro a ha hb
      simp only [List.map_cons, List.map_nil, List.mem_singleton] at hb
      exact hptrnotin (hb ▸ ha)⟩
  · rw [hcab]; exact hinv.cidNodup
  · rw [hcab]; exact hinv.cidNe
  · rw [hcab]; exact hinv.portsNodup
  · rw [hcab, hmods]
    intro c hc
    rw [List.any_append, Bool.or_eq_true]
    exact Or.inl (hinv.cOut c hc)
  · rw [hcab, hmods]
    intro c hc
    rw [List.any_append, Bool.or_eq_true]
    exact Or.inl (hinv.cIn c hc)
  · rw [hnm]
    have := hinv.nmidNonneg
    split <;> omega
  · have := (addModule_ok_shape h).2.2.2.2.2
    -- nextCableId unchanged: not recorded in the shape lemma; derive directly
    have hnc : st'.nextCableId = st.nextCableId := by
      unfold addModule at h
      by_cases hp : st.modules.any (fun m2 => m2.ptr == m.ptr) = true
      · simp [hp] at h
      · rw [Bool.not_eq_true] at hp
        by_cases hidg2 : st.modules.any
            (fun m2 => m2.id == (if m.id = -1 then st.nextModuleId else m.id)) = true
        · simp [hp, hidg2] at h
        · rw [Bool.not_eq_true] at hidg2
          simp only [hp, hidg2, Bool.false_eq_true, if_false, Except.ok.injEq,
            Prod.mk.injEq] at h
          rw [← h.1]
    rw [hnc]
    exact hinv.ncidNonneg

end Engine

namespace Engine

lemma removeModule_inv (st : EngineState) (p : Nat) (hinv : Inv st) :
    Inv (removeModule st p) := by
  unfold removeModule
  cases hfind : st.modules.find? (fun m => m.ptr == p) with
  | none => exact hinv
  | some m =>
    have hmmem := List.mem_of_find?_eq_some hfind
    have hmptr : m.ptr = p := by simpa using List.find?_some hfind
    have hsubm : (st.modules.filter (fun m2 => !(m2.ptr == p))).Sublist st.modules :=
      List.filter_sublist st.modules
    have hsubc : (st.cables.filter
        (fun c => !(c.outputModuleId == m.id || c.inputModuleId == m.id))).Sublist st.cables :=
      List.filter_sublist st.cables
    refine ⟨?_, ?_, ?_, ?_, ?_, ?_, ?_, ?_, ?_, ?_⟩
    · exact (hsubm.map _).nodup hinv.midNodup
    · exact fun x hx => hinv.midNe x (hsubm.mem hx)
    · exact (hsubm.map _).nodup hinv.mptrNodup
    · exact (hsubc.map _).nodup hinv.cidNodup
    · exact fun c hc => hinv.cidNe c (hsubc.mem hc)
    · exact (hsubc.map _).nodup hinv.portsNodup
    · intro c hc
      rw [List.mem_filter] at hc
      obtain ⟨hcmem, hguard⟩ := hc
      have hout : c.outputModuleId ≠ m.id := by
        simp only [Bool.not_eq_eq_eq_not, Bool.not_true, Bool.or_eq_false_iff] at hguard
        simpa using hguard.1
      rcases List.any_eq_true.mp (hinv.cOut c hcmem) with ⟨mm, hmm, hmmid⟩
      have hmmid' : mm.id = c.outputModuleId := by simpa using hmmid
      have hmmkeep : mm.ptr ≠ p := by
        intro hmp
        have : mm = m := List.inj_on_of_nodup_map hinv.mptrNodup hmm hmmem
          (hmp.trans hmptr.symm)
        exact hout (hmmid'.symm.trans (congrArg EModule.id this))
      refine List.any_eq_true.mpr ⟨mm, List.mem_filter.mpr ⟨hmm, by simpa using hmmkeep⟩, hmmid⟩
    · intro c hc
      rw [List.mem_filter] at hc
      obtain ⟨hcmem, hguard⟩ := hc
      have hin : c.inputModuleId ≠ m.id := by
        simp only [Bool.not_eq_eq_eq_not, Bool.not_true, Bool.or_eq_false_iff] at hguard
        simpa using hguard.2
      rcases List.any_eq_true.mp (hinv.cIn c hcmem) with ⟨mm, hmm, hmmid⟩
      have hmmid' : mm.id = c.inputModuleId := by simpa using hmmid
      have hmmkeep : mm.ptr ≠ p := by
        intro hmp
        have : mm = m := List.inj_on_of_nodup_map hinv.mptrNodup hmm hmmem
          (hmp.trans hmptr.symm)
        exact hin (hmmid'.symm.trans (congrArg EModule.id this))
      refine List.any_eq_true.mpr ⟨mm, List.mem_filter.mpr ⟨hmm, by simpa using hmmkeep⟩, hmmid⟩
    · exact hinv.nmidNonneg
    · exact hinv.ncidNonneg

lemma addCable_inv {st : EngineState} {c : ECable} {st' : EngineState} {id : Int}
    (h : addCable st c = .ok (st', id)) (hinv : Inv st) : Inv st' := by
  obtain ⟨hcabs, hmods, -, -, -, -, -, -, -, hnmid, hid, -, hidg, hout, hin, hportg, hnc⟩ :=
    addCable_ok_shape h
  have hidnotin : id ∉ st.cables.map (fun x => x.id) := by
    rw [List.mem_map]
    rintro ⟨x, hx, hxid⟩
    exact absurd (by simpa using hxid : (x.id == id) = true)
      (by simpa using List.any_eq_false.mp hidg x hx)
  have hportnotin : ((c.inputModuleId, c.inputPortId) : Int × Int) ∉
      st.cables.map (fun x => (x.inputModuleId, x.inputPortId)) := by
    rw [List.mem_map]
    rintro ⟨x, hx, hxp⟩
    have hx1 : x.inputModuleId = c.inputModuleId := congrArg Prod.fst hxp
    have hx2 : x.inputPortId = c.inputPortId := congrArg Prod.snd hxp
    have := List.any_eq_false.mp hportg x hx
    simp [hx1, hx2] at this
  have hidne : id ≠ -1 := by
    by_cases hc1 : c.id = -1
    · rw [hid, if_pos hc1]
      have := hinv.ncidNonneg
      omega
    · rw [hid, if_neg hc1]
      exact hc1
  refine ⟨?_, ?_, ?_, ?_, ?_, ?_, ?_, ?_, ?_, ?_⟩
  · rw [hmods]; exact hinv.midNodup
  · rw [hmods]; exact hinv.midNe
  · rw [hmods]; exact hinv.mptrNodup
  · rw [hcabs, List.map_append, List.nodup_append]
    exact ⟨hinv.cidNodup, by simp, by
      intro a ha hb
      simp only [List.map_cons, List.map_nil, List.mem_singleton] at hb
      exact hidnotin (hb ▸ ha)⟩
  · rw [hcabs]
    intro x hx
    rcases List.mem_append.mp hx with hx | hx
    · exact hinv.cidNe x hx
    · rcases List.mem_singleton.mp hx with rfl
      exact hidne
  · rw [hcabs, List.map_append, List.nodup_append]
    exact ⟨hinv.portsNodup, by simp, by
      intro a ha hb
      simp only [List.map_cons, List.map_nil, List.mem_singleton] at hb
      exact hportnotin (hb ▸ ha)⟩
  · rw [hcabs, hmods]
    intro x hx
    rcases List.mem_append.mp hx with hx | hx
    · exact hinv.cOut x hx
    · rcases List.mem_singleton.mp hx with rfl
      exact hout
  · rw [hcabs, hmods]
    intro x hx
    rcases List.mem_append.mp hx with hx | hx
    · exact hinv.cIn x hx
    · rcases List.mem_singleton.mp hx with rfl
      exact hin
  · rw [hnmid]; exact hinv.nmidNonneg
  · rw [hnc]
    have := hinv.ncidNonneg
    split <;> omega

end Engine

namespace Engine

lemma inv_of_graph_eq {st st' : EngineState} (hm : st'.modules = st.modules)
    (hc : st'.cables = st.cables) (hnm : st'.nextModuleId = st.nextModuleId)
    (hnc : st'.nextCableId = st.nextCableId) (hinv : Inv st) : Inv st' := by
  refine ⟨?_, ?_, ?_, ?_, ?_, ?_, ?_, ?_, ?_, ?_⟩
  · rw [hm]; exact hinv.midNodup
  · rw [hm]; exact hinv.midNe
  · rw [hm]; exact hinv.mptrNodup
  · rw [hc]; exact hinv.cidNodup
  · rw [hc]; exact hinv.cidNe
  · rw [hc]; exact hinv.portsNodup
  · rw [hc, hm]; exact hinv.cOut
  · rw [hc, hm]; exact hinv.cIn
  · rw [hnm]; exact hinv.nmidNonneg
  · rw [hnc]; exact hinv.ncidNonneg

lemma mapped_modules_inv (st : EngineState) (f : EModule → EModule)
    (hid : ∀ m, (f m).id = m.id) (hptr : ∀ m, (f m).ptr = m.ptr)
    (hinv : Inv st) : Inv { st with modules := st.modules.map f } := by
  have hids : (st.modules.map f).map (fun m => m.id) = st.modules.map (fun m => m.id) := by
    rw [List.map_map]
    exact List.map_congr_left (fun a _ => hid a)
  have hptrs : (st.modules.map f).map (fun m => m.ptr) = st.modules.map (fun m => m.ptr) := by
    rw [List.map_map]
    exact List.map_congr_left (fun a _ => hptr a)
  have hany : ∀ x : Int, ∀ l : List EModule,
      (l.any (fun m => m.id == x) = true) → ((l.map f).any (fun m => m.id == x) = true) := by
    intro x l hl
    rcases List.any_eq_true.mp hl with ⟨mm, hmm, hmx⟩
    exact List.any_eq_true.mpr ⟨f mm, List.mem_map_of_mem f hmm, by
      have : mm.id = x := by simpa using hmx
      simp [hid, this]⟩
  refine ⟨?_, ?_, ?_, ?_, ?_, ?_, ?_, ?_, ?_, ?_⟩
  · rw [hids]; exact hinv.midNodup
  · intro x hx
    rcases List.mem_map.mp hx with ⟨a, ha, rfl⟩
    rw [hid]
    exact hinv.midNe a ha
  · rw [hptrs]; exact hinv.mptrNodup
  · exact hinv.cidNodup
  · exact hinv.cidNe
  · exact hinv.portsNodup
  · exact fun c hc => hany _ _ (hinv.cOut c hc)
  · exact fun c hc => hany _ _ (hinv.cIn c hc)
  · exact hinv.nmidNonneg
  · exact hinv.ncidNonneg

lemma removeCable_inv (st : EngineState) (p : Nat) (hinv : Inv st) :
    Inv (removeCable st p) := by
  have hsub : (st.cables.filter (fun c => !(c.ptr == p))).Sublist st.cables :=
    List.filter_sublist st.cables
  refine ⟨hinv.midNodup, hinv.midNe, hinv.mptrNodup, ?_, ?_, ?_, ?_, ?_,
    hinv.nmidNonneg, hinv.ncidNonneg⟩
  · exact (hsub.map _).nodup hinv.cidNodup
  · exact fun c hc => hinv.cidNe c (hsub.mem hc)
  · exact (hsub.map _).nodup hinv.portsNodup
  · exact fun c hc => hinv.cOut c (hsub.mem hc)
  · exact fun c hc => hinv.cIn c (hsub.mem hc)

lemma clearRack_inv (st : EngineState) (hinv : Inv st) : Inv (clearRack st) := by
  refine ⟨?_, ?_, ?_, ?_, ?_, ?_, ?_, ?_, ?_, ?_⟩ <;>
    first
      | exact List.nodup_nil
      | exact fun x hx => absurd hx (List.not_mem_nil x)
      | exact hinv.nmidNonneg
      | exact hinv.ncidNonneg

lemma setParamValue_inv (st : EngineState) (p : Nat) (i : Nat) (v : Rat)
    (hinv : Inv st) : Inv (setParamValue st p i v) :=
  mapped_modules_inv st _ (fun m => by split <;> rfl) (fun m => by split <;> rfl) hinv

lemma bypassModule_inv (st : EngineState) (p : Nat) (b : Bool) (hinv : Inv st) :
    Inv (bypassModule st p b) :=
  mapped_modules_inv st _ (fun m => by split <;> rfl) (fun m => by split <;> rfl) hinv

lemma addParamHandle_graph (st : EngineState) (h : EParamHandle) :
    (addParamHandle st h).modules = st.modules ∧
    (addParamHandle st h).cables = st.cables ∧
    (addParamHandle st h).nextModuleId = st.nextModuleId ∧
    (addParamHandle st h).nextCableId = st.nextCableId := by
  unfold addParamHandle
  split <;> exact ⟨rfl, rfl, rfl, rfl⟩

lemma updateParamHandle_graph (st : EngineState) (p : Nat) (mid pid : Int) (ow : Bool) :
    (updateParamHandle st p mid pid ow).modules = st.modules ∧
    (updateParamHandle st p mid pid ow).cables = st.cables ∧
    (updateParamHandle st p mid pid ow).nextModuleId = st.nextModuleId ∧
    (updateParamHandle st p mid pid ow).nextCableId = st.nextCableId := by
  unfold updateParamHandle
  split
  · dsimp only
    split <;> exact ⟨rfl, rfl, rfl, rfl⟩
  · exact ⟨rfl, rfl, rfl, rfl⟩

lemma loadModules_inv {mjs : List MJson} {st st' : EngineState}
    (h : loadModules st mjs = .ok st') (hinv : Inv st) : Inv st' := by
  induction mjs generalizing st with
  | nil =>
    simp only [loadModules, Except.ok.injEq] at h
    rw [← h]
    exact hinv
  | cons mj rest ih =>
    simp only [loadModules, bind, Except.bind] at h
    cases hadd : addModule { st with nextPtr := st.nextPtr + 1 }
        ⟨st.nextPtr, mj.id, mj.params, mj.bypassed, mj.data⟩ with
    | error e => rw [hadd] at h; exact absurd h (by simp)
    | ok r =>
      rw [hadd] at h
      obtain ⟨st1, id1⟩ := r
      have hinv1 : Inv { st with nextPtr := st.nextPtr + 1 } := by
        refine inv_of_graph_eq ?_ ?_ ?_ ?_ hinv <;> rfl
      exact ih h (addModule_inv hadd hinv1)

lemma loadCables_inv {cjs : List CJson} {st st' : EngineState}
    (h : loadCables st cjs = .ok st') (hinv : Inv st) : Inv st' := by
  induction cjs generalizing st with
  | nil =>
    simp only [loadCables, Except.ok.injEq] at h
    rw [← h]
    exact hinv
  | cons cj rest ih =>
    simp only [loadCables, bind, Except.bind] at h
    cases hadd : addCable { st with nextPtr := st.nextPtr + 1 }
        ⟨st.nextPtr, cj.id, cj.outputModuleId, cj.outputPortId, cj.inputModuleId,
          cj.inputPortId⟩ with
    | error e => rw [hadd] at h; exact absurd h (by simp)
    | ok r =>
      rw [hadd] at h
      obtain ⟨st1, id1⟩ := r
      have hinv1 : Inv { st with nextPtr := st.nextPtr + 1 } := by
        refine inv_of_graph_eq ?_ ?_ ?_ ?_ hinv <;> rfl
      exact ih h (addCable_inv hadd hinv1)

lemma fromJson_inv (st : EngineState) (j : Json) (hinv : Inv st) :
    Inv (fromJson st j).1 := by
  unfold fromJson
  cases hdec : decodeGraph j with
  | none => exact clearRack_inv st hinv
  | some g =>
    cases hload : loadGraph st g with
    | error e =>
      simp only [hload]
      exact clearRack_inv st hinv
    | ok st' =>
      simp only [hload]
      unfold loadGraph at hload
      cases hm : loadModules (clearRack st) g.modules with
      | error e => simp [hm, bind, Except.bind] at hload
      | ok st1 =>
        simp only [hm, bind, Except.bind] at hload
        cases hc : loadCables st1 g.cables with
        | error e => simp [hc] at hload
        | ok st2 =>
          simp only [hc, Except.ok.injEq] at hload
          have hinv2 : Inv st2 :=
            loadCables_inv hc (loadModules_inv hm (clearRack_inv st hinv))
          rw [← hload]
          unfold loadMaster
          cases g.master with
          | none => refine inv_of_graph_eq ?_ ?_ ?_ ?_ hinv2 <;> rfl
          | some i => refine inv_of_graph_eq ?_ ?_ ?_ ?_ hinv2 <;> rfl

lemma applyOp_inv (st : EngineState) (op : Op) (hinv : Inv st) : Inv (applyOp st op) := by
  cases op with
  | addModuleOp m =>
    simp only [applyOp]
    cases h : addModule st m with
    | ok r =>
      obtain ⟨st1, id1⟩ := r
      exact addModule_inv h hinv
    | error e => exact hinv
  | removeModuleOp p => exact removeModule_inv st p hinv
  | addCableOp c =>
    simp only [applyOp]
    cases h : addCable st c with
    | ok r =>
      obtain ⟨st1, id1⟩ := r
      exact addCable_inv h hinv
    | error e => exact hinv
  | removeCableOp p => exact removeCable_inv st p hinv
  | clearOp => exact clearRack_inv st hinv
  | setMasterOp p => refine inv_of_graph_eq ?_ ?_ ?_ ?_ hinv <;> rfl
  | bypassOp p b => exact bypassModule_inv st p b hinv
  | setParamOp p i v => exact setParamValue_inv st p i v hinv
  | addHandleOp h =>
    obtain ⟨h1, h2, h3, h4⟩ := addParamHandle_graph st h
    exact inv_of_graph_eq h1 h2 h3 h4 hinv
  | removeHandleOp p => refine inv_of_graph_eq ?_ ?_ ?_ ?_ hinv <;> rfl
  | updateHandleOp p mid pid ow =>
    obtain ⟨h1, h2, h3, h4⟩ := updateParamHandle_graph st p mid pid ow
    exact inv_of_graph_eq h1 h2 h3 h4 hinv
  | stepBlockOp frames => refine inv_of_graph_eq ?_ ?_ ?_ ?_ hinv <;> rfl
  | setFrameOp f => refine inv_of_graph_eq ?_ ?_ ?_ ?_ hinv <;> rfl
  | setSampleRateOp r => refine inv_of_graph_eq ?_ ?_ ?_ ?_ hinv <;> rfl
  | fromJsonOp j => exact fromJson_inv st j hinv

lemma initEngine_inv : Inv initEngine := by
  refine ⟨?_, ?_, ?_, ?_, ?_, ?_, ?_, ?_, ?_, ?_⟩ <;>
    first
      | exact List.nodup_nil
      | exact fun x hx => absurd hx (List.not_mem_nil x)
      | exact le_refl 0

lemma reachable_inv {st : EngineState} (h : Reachable st) : Inv st := by
  obtain ⟨ops, hops⟩ := h
  rw [← hops]
  clear hops
  induction ops using List.reverseRecOn with
  | nil => exact initEngine_inv
  | append_singleton l op ih =>
    have : runOps initEngine (l ++ [op]) = applyOp (runOps initEngine l) op := by
      unfold runOps
      rw [List.foldl_append]
      rfl
    rw [this]
    exact applyOp_inv _ op ih

end Engine

namespace Engine

lemma decodeParams_encode (ps : List Rat) (i : Nat) :
    decodeParams (encodeParamsFrom i ps) i = some ps := by
  induction ps generalizing i with
  | nil => rfl
  | cons v vs ih =>
    simp only [encodeParamsFrom, decodeParams, encodeParam, jGet, jGet.lookupField,
      asInt, asNum, Option.bind_eq_bind, Option.bind_some]
    simp [ih]

lemma decodeModule_encode (m : MJson) : decodeModule (encodeModule m) = some m := by
  simp only [decodeModule, encodeModule, jGet, jGet.lookupField, asInt, asArr, asBool,
    asNat, Option.bind_eq_bind, Option.bind_some]
  have hd : ¬((m.data : Int) < 0) := by
    have := Int.natCast_nonneg m.data
    omega
  simp [decodeParams_encode, hd]

lemma decodeCable_encode (c : CJson) : decodeCable (encodeCable c) = some c := by
  simp only [decodeCable, encodeCable, jGet, jGet.lookupField, asInt,
    Option.bind_eq_bind, Option.bind_some]
  simp

lemma decodeList_encode {α : Type} (f : Json → Option α) (g : α → Json)
    (hf : ∀ a, f (g a) = some a) (l : List α) :
    decodeList f (l.map g) = some l := by
  induction l with
  | nil => rfl
  | cons a rest ih =>
    simp only [List.map_cons, decodeList, hf, Option.bind_eq_bind, Option.bind_some, ih]
    rfl

lemma decodeGraph_encode (g : GraphJson) : decodeGraph (encodeGraph g) = some g := by
  cases g with
  | mk ms cs master =>
    cases master with
    | none =>
      simp only [decodeGraph, encodeGraph, jGet, jGet.lookupField, asInt, asArr,
        Option.bind_eq_bind, Option.bind_some]
      simp [decodeList_encode decodeModule encodeModule decodeModule_encode,
        decodeList_encode decodeCable encodeCable decodeCable_encode]
    | some i =>
      simp only [decodeGraph, encodeGraph, jGet, jGet.lookupField, asInt, asArr,
        Option.bind_eq_bind, Option.bind_some]
      simp [decodeList_encode decodeModule encodeModule decodeModule_encode,
        decodeList_encode decodeCable encodeCable decodeCable_encode]

end Engine

namespace Engine

lemma loadModules_ok (mjs : List MJson) (st : EngineState)
    (hids : (st.modules.map (fun m => m.id) ++ mjs.map MJson.id).Nodup)
    (hne : ∀ mj ∈ mjs, mj.id ≠ -1)
    (hfresh : ∀ m ∈ st.modules, m.ptr < st.nextPtr)
    (hptrnd : (st.modules.map (fun m => m.ptr)).Nodup) :
    ∃ st', loadModules st mjs = .ok st' ∧
      st'.modules.map stripModule = st.modules.map stripModule ++ mjs ∧
      st'.cables = st.cables ∧
      st'.masterPtr = st.masterPtr ∧
      (st'.modules.map (fun m => m.ptr)).Nodup ∧
      (∀ m ∈ st'.modules, m.ptr < st'.nextPtr) := by
  induction mjs generalizing st with
  | nil => exact ⟨st, rfl, by simp, rfl, rfl, hptrnd, hfresh⟩
  | cons mj rest ih =>
    have hne0 : mj.id ≠ -1 := hne mj (List.mem_cons_self mj rest)
    have hdisj : List.Disjoint (st.modules.map (fun m => m.id)) (mj.id :: rest.map MJson.id) := by
      have := List.nodup_append.mp (by simpa using hids)
      exact this.2.2
    have hidnotin : mj.id ∉ st.modules.map (fun m => m.id) := by
      intro hmem
      exact hdisj hmem (List.mem_cons_self mj.id _)
    have hptrg : st.modules.any (fun m2 => m2.ptr == st.nextPtr) = false := by
      apply List.any_eq_false.mpr
      intro x hx
      have := hfresh x hx
      simp only [beq_iff_eq]
      omega
    have hidg : st.modules.any (fun m2 => m2.id == mj.id) = false := by
      apply List.any_eq_false.mpr
      intro x hx
      simp only [beq_iff_eq]
      intro hxe
      exact hidnotin (List.mem_map.mpr ⟨x, hx, hxe⟩)
    have hadd : addModule { st with nextPtr := st.nextPtr + 1 }
        ⟨st.nextPtr, mj.id, mj.params, mj.bypassed, mj.data⟩ =
        .ok ({ st with
                nextPtr := st.nextPtr + 1,
                modules := st.modules ++ [⟨st.nextPtr, mj.id, mj.params, mj.bypassed, mj.data⟩] },
             mj.id) := by
      unfold addModule
      simp only [hptrg, Bool.false_eq_true, if_false, if_neg hne0, hidg]
    have hstep : loadModules st (mj :: rest) = loadModules
        { st with
          nextPtr := st.nextPtr + 1,
          modules := st.modules ++ [⟨st.nextPtr, mj.id, mj.params, mj.bypassed, mj.data⟩] }
        rest := by
      simp only [loadModules, bind, Except.bind, hadd]
    set st2 : EngineState :=
      { st with
        nextPtr := st.nextPtr + 1,
        modules := st.modules ++ [⟨st.nextPtr, mj.id, mj.params, mj.bypassed, mj.data⟩] }
      with hst2
    have hids2 : (st2.modules.map (fun m => m.id) ++ rest.map MJson.id).Nodup := by
      rw [hst2]
      simp only [List.map_append]
      rw [List.append_assoc]
      simpa using hids
    have hne2 : ∀ x ∈ rest, x.id ≠ -1 := fun x hx => hne x (List.mem_cons_of_mem mj hx)
    have hfresh2 : ∀ m ∈ st2.modules, m.ptr < st2.nextPtr := by
      intro x hx
      rw [hst2] at hx ⊢
      simp only [List.mem_append, List.mem_singleton] at hx
      rcases hx with hx | rfl
      · have := hfresh x hx
        show x.ptr < st.nextPtr + 1
        omega
      · show st.nextPtr < st.nextPtr + 1
        omega
    have hptrnd2 : (st2.modules.map (fun m => m.ptr)).Nodup := by
      rw [hst2]
      simp only [List.map_append, List.nodup_append]
      refine ⟨hptrnd, by simp, ?_⟩
      intro a ha hb
      simp only [List.map_cons, List.map_nil, List.mem_singleton] at hb
      rcases List.mem_map.mp ha with ⟨x, hx, rfl⟩
      have := hfresh x hx
      have hb2 : x.ptr = st.nextPtr := hb
      omega
    rcases ih st2 hids2 hne2 hfresh2 hptrnd2 with
      ⟨st', hload, hmods, hcab, hmp, hnd, hfr⟩
    refine ⟨st', by rw [hstep]; exact hload, ?_, by rw [hcab], by rw [hmp], hnd, hfr⟩
    rw [hmods, hst2]
    simp only [List.map_append]
    rw [List.append_assoc]
    rfl

end Engine

namespace Engine

lemma loadCables_ok (cjs : List CJson) (st : EngineState)
    (hids : (st.cables.map (fun c => c.id) ++ cjs.map CJson.id).Nodup)
    (hne : ∀ cj ∈ cjs, cj.id ≠ -1)
    (hfresh : ∀ c ∈ st.cables, c.ptr < st.nextPtr)
    (hports : (st.cables.map (fun c => (c.inputModuleId, c.inputPortId)) ++
        cjs.map (fun c => (c.inputModuleId, c.inputPortId))).Nodup)
    (hout : ∀ cj ∈ cjs, st.modules.any (fun m => m.id == cj.outputModuleId) = true)
    (hin : ∀ cj ∈ cjs, st.modules.any (fun m => m.id == cj.inputModuleId) = true) :
    ∃ st', loadCables st cjs = .ok st' ∧
      st'.cables.map stripCable = st.cables.map stripCable ++ cjs ∧
      st'.modules = st.modules ∧
      st'.masterPtr = st.masterPtr := by
  induction cjs generalizing st with
  | nil => exact ⟨st, rfl, by simp, rfl, rfl⟩
  | cons cj rest ih =>
    have hne0 : cj.id ≠ -1 := hne cj (List.mem_cons_self cj rest)
    have hdisj : List.Disjoint (st.cables.map (fun c => c.id)) (cj.id :: rest.map CJson.id) := by
      have := List.nodup_append.mp (by simpa using hids)
      exact this.2.2
    have hidnotin : cj.id ∉ st.cables.map (fun c => c.id) := by
      intro hmem
      exact hdisj hmem (List.mem_cons_self cj.id _)
    have hpdisj : List.Disjoint (st.cables.map (fun c => (c.inputModuleId, c.inputPortId)))
        ((cj.inputModuleId, cj.inputPortId) :: rest.map (fun c => (c.inputModuleId, c.inputPortId))) := by
      have := List.nodup_append.mp (by simpa using hports)
      exact this.2.2
    have hpnotin : ((cj.inputModuleId, cj.inputPortId) : Int × Int) ∉
        st.cables.map (fun c => (c.inputModuleId, c.inputPortId)) := by
      intro hmem
      exact hpdisj hmem (List.mem_cons_self _ _)
    have hptrg : st.cables.any (fun c2 => c2.ptr == st.nextPtr) = false := by
      apply List.any_eq_false.mpr
      intro x hx
      have := hfresh x hx
      simp only [beq_iff_eq]
      omega
    have hidg : st.cables.any (fun c2 => c2.id == cj.id) = false := by
      apply List.any_eq_false.mpr
      intro x hx
      simp only [beq_iff_eq]
      intro hxe
      exact hidnotin (List.mem_map.mpr ⟨x, hx, hxe⟩)
    have hportg : st.cables.any
        (fun c2 => c2.inputModuleId == cj.inputModuleId &&
          c2.inputPortId == cj.inputPortId) = false := by
      apply List.any_eq_false.mpr
      intro x hx
      simp only [Bool.and_eq_true, beq_iff_eq, not_and]
      intro h1 h2
      exact absurd (List.mem_map.mpr ⟨x, hx, by rw [h1, h2]⟩) hpnotin
    have hout0 := hout cj (List.mem_cons_self cj rest)
    have hin0 := hin cj (List.mem_cons_self cj rest)
    have hadd : addCable { st with nextPtr := st.nextPtr + 1 }
        ⟨st.nextPtr, cj.id, cj.outputModuleId, cj.outputPortId, cj.inputModuleId,
          cj.inputPortId⟩ =
        .ok ({ st with
                nextPtr := st.nextPtr + 1,
                cables := st.cables ++ [⟨st.nextPtr, cj.id, cj.outputModuleId,
                  cj.outputPortId, cj.inputModuleId, cj.inputPortId⟩] },
             cj.id) := by
      unfold addCable
      simp only [hptrg, Bool.false_eq_true, if_false, if_neg hne0, hidg, hout0, hin0,
        hportg, Bool.not_true, Bool.not_false, if_true]
    have hstep : loadCables st (cj :: rest) = loadCables
        { st with
          nextPtr := st.nextPtr + 1,
          cables := st.cables ++ [⟨st.nextPtr, cj.id, cj.outputModuleId, cj.outputPortId,
            cj.inputModuleId, cj.inputPortId⟩] }
        rest := by
      simp only [loadCables, bind, Except.bind, hadd]
    set st2 : EngineState :=
      { st with
        nextPtr := st.nextPtr + 1,
        cables := st.cables ++ [⟨st.nextPtr, cj.id, cj.outputModuleId, cj.outputPortId,
          cj.inputModuleId, cj.inputPortId⟩] }
      with hst2
    have hids2 : (st2.cables.map (fun c => c.id) ++ rest.map CJson.id).Nodup := by
      rw [hst2]
      simp only [List.map_append]
      rw [List.append_assoc]
      simpa using hids
    have hne2 : ∀ x ∈ rest, x.id ≠ -1 := fun x hx => hne x (List.mem_cons_of_mem cj hx)
    have hfresh2 : ∀ c ∈ st2.cables, c.ptr < st2.nextPtr := by
      intro x hx
      rw [hst2] at hx ⊢
      simp only [List.mem_append, List.mem_singleton] at hx
      rcases hx with hx | rfl
      · have := hfresh x hx
        show x.ptr < st.nextPtr + 1
        omega
      · show st.nextPtr < st.nextPtr + 1
        omega
    have hports2 : (st2.cables.map (fun c => (c.inputModuleId, c.inputPortId)) ++
        rest.map (fun c => (c.inputModuleId, c.inputPortId))).Nodup := by
      rw [hst2]
      simp only [List.map_append]
      rw [List.append_assoc]
      simpa using hports
    have hout2 : ∀ x ∈ rest, st2.modules.any (fun m => m.id == x.outputModuleId) = true :=
      fun x hx => hout x (List.mem_cons_of_mem cj hx)
    have hin2 : ∀ x ∈ rest, st2.modules.any (fun m => m.id == x.inputModuleId) = true :=
      fun x hx => hin x (List.mem_cons_of_mem cj hx)
    rcases ih st2 hids2 hne2 hfresh2 hports2 hout2 hin2 with
      ⟨st', hload, hcabs, hmods, hmp⟩
    refine ⟨st', by rw [hstep]; exact hload, ?_, by rw [hmods], by rw [hmp]⟩
    rw [hcabs, hst2]
    simp only [List.map_append]
    rw [List.append_assoc]
    rfl

end Engine

namespace Engine

lemma map_id_of_strip (l : List EModule) :
    (l.map stripModule).map MJson.id = l.map (fun m => m.id) := by
  rw [List.map_map]
  rfl

lemma map_cid_of_strip (l : List ECable) :
    (l.map stripCable).map CJson.id = l.map (fun c => c.id) := by
  rw [List.map_map]
  rfl

lemma map_ports_of_strip (l : List ECable) :
    (l.map stripCable).map (fun c => (c.inputModuleId, c.inputPortId)) =
      l.map (fun c => (c.inputModuleId, c.inputPortId)) := by
  rw [List.map_map]
  rfl

lemma any_id_congr {l1 l2 : List EModule}
    (h : l1.map (fun m => m.id) = l2.map (fun m => m.id)) (x : Int) :
    l1.any (fun m => m.id == x) = l2.any (fun m => m.id == x) := by
  rw [Bool.eq_iff_iff, anyId_iff_mem, anyId_iff_mem, h]

lemma loadMaster_modules (st : EngineState) (x : Option Int) :
    (loadMaster st x).modules = st.modules ∧ (loadMaster st x).cables = st.cables := by
  unfold loadMaster
  cases x <;> exact ⟨rfl, rfl⟩

/-- C2: on every reachable engine state, serialize / deserialize / serialize
is a fixed point: `fromJson` accepts the output of `toJson` and the
re-serialized graph document is identical (the document level already
abstracts whitespace and key order). -/
theorem toJson_fromJson_toJson_fixed (st0 st : EngineState) (hreach : Reachable st) :
    (fromJson st0 (toJson st)).2 = true ∧
    toJson (fromJson st0 (toJson st)).1 = toJson st := by
  have hinv := reachable_inv hreach
  have hdec : decodeGraph (toJson st) = some (graphOf st) := decodeGraph_encode _
  have hgmods : (graphOf st).modules = st.modules.map stripModule := rfl
  have hgcabs : (graphOf st).cables = st.cables.map stripCable := rfl
  -- load the modules into the cleared engine
  have hids1 : ((clearRack st0).modules.map (fun m => m.id) ++
      (graphOf st).modules.map MJson.id).Nodup := by
    rw [hgmods, map_id_of_strip]
    simpa using hinv.midNodup
  have hne1 : ∀ mj ∈ (graphOf st).modules, mj.id ≠ -1 := by
    rw [hgmods]
    intro mj hmj
    rcases List.mem_map.mp hmj with ⟨m, hm, rfl⟩
    exact hinv.midNe m hm
  have hfresh1 : ∀ m ∈ (clearRack st0).modules, m.ptr < (clearRack st0).nextPtr := by
    intro m hm
    exact absurd hm (List.not_mem_nil m)
  have hptrnd1 : ((clearRack st0).modules.map (fun m => m.ptr)).Nodup := by
    exact List.nodup_nil
  rcases loadModules_ok (graphOf st).modules (clearRack st0) hids1 hne1 hfresh1 hptrnd1 with
    ⟨st2, hl2, hmods2, hcabs2, hmp2, hptrnd2, hfresh2⟩
  have hcabs2e : st2.cables = [] := hcabs2
  have hmods2e : st2.modules.map stripModule = (graphOf st).modules := by
    rw [hmods2]
    rfl
  have hids2 : st2.modules.map (fun m => m.id) = st.modules.map (fun m => m.id) := by
    rw [← map_id_of_strip, hmods2e, hgmods, map_id_of_strip]
  -- load the cables
  have hidsc : (st2.cables.map (fun c => c.id) ++ (graphOf st).cables.map CJson.id).Nodup := by
    rw [hcabs2e, hgcabs, map_cid_of_strip]
    simpa using hinv.cidNodup
  have hnec : ∀ cj ∈ (graphOf st).cables, cj.id ≠ -1 := by
    rw [hgcabs]
    intro cj hcj
    rcases List.mem_map.mp hcj with ⟨c, hc, rfl⟩
    exact hinv.cidNe c hc
  have hfreshc : ∀ c ∈ st2.cables, c.ptr < st2.nextPtr := by
    rw [hcabs2e]
    intro c hc
    exact absurd hc (List.not_mem_nil c)
  have hportsc : (st2.cables.map (fun c => (c.inputModuleId, c.inputPortId)) ++
      (graphOf st).cables.map (fun c => (c.inputModuleId, c.inputPortId))).Nodup := by
    rw [hcabs2e, hgcabs, map_ports_of_strip]
    simpa using hinv.portsNodup
  have houtc : ∀ cj ∈ (graphOf st).cables,
      st2.modules.any (fun m => m.id == cj.outputModuleId) = true := by
    rw [hgcabs]
    intro cj hcj
    rcases List.mem_map.mp hcj with ⟨c, hc, rfl⟩
    rw [any_id_congr hids2]
    exact hinv.cOut c hc
  have hinc : ∀ cj ∈ (graphOf st).cables,
      st2.modules.any (fun m => m.id == cj.inputModuleId) = true := by
    rw [hgcabs]
    intro cj hcj
    rcases List.mem_map.mp hcj with ⟨c, hc, rfl⟩
    rw [any_id_congr hids2]
    exact hinv.cIn c hc
  rcases loadCables_ok (graphOf st).cables st2 hidsc hnec hfreshc hportsc houtc hinc with
    ⟨st3, hl3, hcabs3, hmods3, hmp3⟩
  -- the whole load succeeds
  have hloadg : loadGraph st0 (graphOf st) = .ok (loadMaster st3 (graphOf st).master) := by
    unfold loadGraph
    simp only [hl2, hl3, bind, Except.bind]
  have hfj : fromJson st0 (toJson st) = (loadMaster st3 (graphOf st).master, true) := by
    unfold fromJson
    simp only [hdec, hloadg]
  rw [hfj]
  refine ⟨rfl, ?_⟩
  -- the reloaded graph document equals the original
  have hids3 : st3.modules.map (fun m => m.id) = st.modules.map (fun m => m.id) := by
    rw [hmods3]
    exact hids2
  have hptrnd3 : (st3.modules.map (fun m => m.ptr)).Nodup := by
    rw [hmods3]
    exact hptrnd2
  set st4 : EngineState := loadMaster st3 (graphOf st).master with hst4
  have hm4 := loadMaster_modules st3 (graphOf st).master
  have hmodsF : st4.modules.map stripModule = st.modules.map stripModule := by
    rw [hst4, hm4.1, hmods3, hmods2e, hgmods]
  have hcabsF : st4.cables.map stripCable = st.cables.map stripCable := by
    rw [hst4, hm4.2, hcabs3, hcabs2e, hgcabs]
    rfl
  have hmastF : st4.masterPtr.bind
      (fun p => (st4.modules.find? (fun m => m.ptr == p)).map (fun m => m.id)) =
      (graphOf st).master := by
    cases hgm : (graphOf st).master with
    | none =>
      have : st4.masterPtr = none := by
        rw [hst4, hgm]
        rfl
      rw [this]
      rfl
    | some i =>
      -- a module with id i exists in the reloaded rack
      have himem : i ∈ st3.modules.map (fun m => m.id) := by
        rw [hids3]
        unfold graphOf at hgm
        simp only at hgm
        rcases Option.bind_eq_some.mp hgm with ⟨p0, -, hfind⟩
        rcases Option.map_eq_some'.mp hfind with ⟨mstar, hmstar, hmid⟩
        exact List.mem_map.mpr ⟨mstar, List.mem_of_find?_eq_some hmstar, hmid⟩
      rcases List.mem_map.mp himem with ⟨x, hx, hxid⟩
      have hexists : (st3.modules.find? (fun m => m.id == i)).isSome = true :=
        List.find?_isSome.mpr ⟨x, hx, by simpa using hxid⟩
      rcases Option.isSome_iff_exists.mp hexists with ⟨mi, hmi⟩
      have hmiid : mi.id = i := by simpa using List.find?_some hmi
      have hmimem := List.mem_of_find?_eq_some hmi
      have hmp4 : st4.masterPtr = some mi.ptr := by
        rw [hst4, hgm]
        unfold loadMaster
        simp only [hmi, Option.map_some']
      rw [hmp4]
      have hexists2 : (st4.modules.find? (fun m => m.ptr == mi.ptr)).isSome = true := by
        rw [hm4.1]
        exact List.find?_isSome.mpr ⟨mi, hmimem, by simp⟩
      rcases Option.isSome_iff_exists.mp hexists2 with ⟨m2, hm2⟩
      have hm2mem : m2 ∈ st3.modules := by
        rw [← hm4.1]
        exact List.mem_of_find?_eq_some hm2
      have hm2ptr : m2.ptr = mi.ptr := by simpa using List.find?_some hm2
      have hm2eq : m2 = mi := List.inj_on_of_nodup_map hptrnd3 hm2mem hmimem hm2ptr
      rw [Option.some_bind, hm2, Option.map_some', hm2eq, hmiid]
  unfold toJson
  congr 1
  unfold graphOf
  simp only [GraphJson.mk.injEq]
  exact ⟨hmodsF, hcabsF, hmastF⟩

/-- A concrete reachable state for the C2 witness: two modules, one cable,
one bypassed module, a parameter set, and a master module. -/
def c2Ops : List Op :=
  [.addModuleOp ⟨0, -1, [1/2], false, 7⟩,
   .addModuleOp ⟨1, -1, [], true, 0⟩,
   .addCableOp ⟨0, -1, 0, 0, 1, 0⟩,
   .setMasterOp (some 0)]

/-- Witness for C2 at the concrete reachable state built by `c2Ops`. -/
theorem toJson_fromJson_toJson_witness :
    (fromJson initEngine (toJson (runOps initEngine c2Ops))).2 = true ∧
    toJson (fromJson initEngine (toJson (runOps initEngine c2Ops))).1 =
      toJson (runOps initEngine c2Ops) :=
  toJson_fromJson_toJson_fixed initEngine (runOps initEngine c2Ops) ⟨c2Ops, rfl⟩

end Engine
